import Mathlib

/-!
Shallow embedding of the `nine_lives_core` crate (src/nine_lives_core/src/lib.rs),
the puzzle generation, validation and move-history engine of a 9x9 Sudoku
variant, together with proofs settling the frozen claims about it.

Modelling conventions:
* A Rust `[[T; 9]; 9]` matrix is a `List (List T)`; well-formedness (9 rows of
  9 cells) is an explicit side condition `WFg` where a claim needs it.
* In-range index access `m[r][c]` is `(m.getD r []).getD c default`; every
  claim about a cell carries `r < 9`, `c < 9` where the conclusion needs it,
  matching the fact that Rust indexing is only defined in range.
* `thread_rng()` randomness is an injected stream of choices: `Rng` is a list
  of naturals, consumed head first and reading `0` once exhausted.  Universal
  claims quantify over every stream; an existential witness picks one.
* `std::time::Instant` is a logical clock: operations that call
  `Instant::now()` take the current time `now : Nat` explicitly.
* Recursive backtracking (`fill_board`, `solve_with_counter`) is translated
  with an explicit fuel argument; the callers pass fuel `82`, strictly more
  than the 81 cells, so the fuel-exhaustion branch is unreachable exactly as
  the Rust recursion (depth bounded by the number of empty cells) never
  diverges.
* `Move.timestamp : Instant` is creation-time metadata never read by any
  operation; it is omitted from the `Move` structure.
-/

namespace NineLives

/-- GRID_SIZE of the source: the size of one dimension of the grid. -/
def GRID_SIZE : Nat := 9

/-- CellType: whether a value was given by the puzzle or filled by the player. -/
inductive CellType where
  | Given : CellType
  | Player : CellType
deriving DecidableEq, Repr

/-- The 9x9 value matrix: `some i` a symbol index, `none` an empty cell. -/
abbrev Grid := List (List (Option Nat))

/-- The parallel 9x9 origin matrix of `BoardState.cell_types`. -/
abbrev TypeGrid := List (List (Option CellType))

/-- BoardState: the cells and the parallel cell-origin matrix. -/
structure BoardState where
  cells : Grid
  cell_types : TypeGrid
deriving DecidableEq, Repr

/-- Read `g[r][c]` (defined off range only to keep the function total;
claims always constrain `r < 9`, `c < 9`). -/
def getG (g : Grid) (r c : Nat) : Option Nat :=
  (g.getD r []).getD c none

/-- Write `g[r][c] = v` (a no-op off range, like every use in the source). -/
def setG (g : Grid) (r c : Nat) (v : Option Nat) : Grid :=
  g.set r ((g.getD r []).set c v)

/-- Read `t[r][c]` of a cell-type matrix. -/
def getT (t : TypeGrid) (r c : Nat) : Option CellType :=
  (t.getD r []).getD c none

/-- Write `t[r][c] = v` of a cell-type matrix. -/
def setT (t : TypeGrid) (r c : Nat) (v : Option CellType) : TypeGrid :=
  t.set r ((t.getD r []).set c v)

/-- A 9x9 matrix all of whose entries are `a`. -/
def fullMatrix (a : α) : List (List α) :=
  List.replicate GRID_SIZE (List.replicate GRID_SIZE a)

/-- BoardState::new — all cells empty. -/
def BoardState.new : BoardState :=
  { cells := fullMatrix none, cell_types := fullMatrix none }

/-- BoardState::clear — resets both matrices to empty. -/
def BoardState.clear (_b : BoardState) : BoardState :=
  BoardState.new

/-- Well-formedness of a 9x9 matrix: nine rows of nine entries, implicit in
the Rust array type `[[T; 9]; 9]`. -/
def WFm (m : List (List α)) : Prop :=
  m.length = 9 ∧ ∀ row ∈ m, row.length = 9

instance {m : List (List α)} : Decidable (WFm m) :=
  have : Decidable (∀ row ∈ m, row.length = 9) :=
    List.decidableBAll (fun row => row.length = 9) m
  instDecidableAnd

/-- Well-formedness of a board: both matrices are 9x9. -/
def WFb (b : BoardState) : Prop :=
  WFm b.cells ∧ WFm b.cell_types

instance {b : BoardState} : Decidable (WFb b) := by
  unfold WFb; infer_instance

/-- BoardState::is_given_cell. -/
def BoardState.is_given_cell (b : BoardState) (row col : Nat) : Bool :=
  getT b.cell_types row col == some CellType.Given

/-- Move: one committed edit (row, col, old value, new value); the source's
`timestamp : Instant` field is creation-time metadata that no operation ever
reads and is not modelled. -/
structure Move where
  row : Nat
  col : Nat
  old_value : Option Nat
  new_value : Option Nat
deriving DecidableEq, Repr

/-- BoardState::cycle_cell — cycles the value of a cell on player input:
`None -> Some 0 -> ... -> Some (num_emojis - 1) -> Some 0`; refused (no move,
no change) on Given cells; returns the resulting updated board together with
the `Option Move` the Rust method returns. -/
def BoardState.cycle_cell (b : BoardState) (row col num_emojis : Nat) :
    BoardState × Option Move :=
  if getT b.cell_types row col == some CellType.Given then
    (b, none)
  else
    let old_value := getG b.cells row col
    let new_value : Option Nat :=
      match old_value with
      | none => some 0
      | some idx => some ((idx + 1) % num_emojis)
    if old_value == new_value then
      (b, none)
    else
      ({ cells := setG b.cells row col new_value
         cell_types := setT b.cell_types row col
           (if new_value.isSome then some CellType.Player else none) },
       some { row := row, col := col, old_value := old_value,
              new_value := new_value })

/-- BoardState::is_valid_placement — the three Sudoku constraints, each loop
an early-return scan translated as `List.all` over the looped range. -/
def is_valid_placement (g : Grid) (row col value : Nat) : Bool :=
  ((List.range GRID_SIZE).all fun c =>
      c == col || !(getG g row c == some value)) &&
  ((List.range GRID_SIZE).all fun r =>
      r == row || !(getG g r col == some value)) &&
  ((List.range 3).all fun dr =>
    (List.range 3).all fun dc =>
      let r := (row / 3) * 3 + dr
      let c := (col / 3) * 3 + dc
      (r == row && c == col) || !(getG g r c == some value))

/-- BoardState::get_conflicts — filled positions violating the rules, in
row-major order. -/
def get_conflicts (g : Grid) : List (Nat × Nat) :=
  (List.range GRID_SIZE).flatMap fun row =>
    (List.range GRID_SIZE).filterMap fun col =>
      match getG g row col with
      | some value =>
          if is_valid_placement g row col value then none else some (row, col)
      | none => none

/-- BoardState::is_complete — all cells filled and no conflicts. -/
def is_complete (g : Grid) : Bool :=
  ((List.range GRID_SIZE).all fun row =>
    (List.range GRID_SIZE).all fun col => (getG g row col).isSome) &&
  (get_conflicts g).isEmpty

/-- BoardState::apply_move — writes the move's new value (used for redo);
silently refused on Given cells. -/
def BoardState.apply_move (b : BoardState) (m : Move) : BoardState :=
  if getT b.cell_types m.row m.col == some CellType.Given then b
  else
    { cells := setG b.cells m.row m.col m.new_value
      cell_types := setT b.cell_types m.row m.col
        (if m.new_value.isSome then some CellType.Player else none) }

/-- BoardState::undo_move — writes the move's old value back; silently
refused on Given cells. -/
def BoardState.undo_move (b : BoardState) (m : Move) : BoardState :=
  if getT b.cell_types m.row m.col == some CellType.Given then b
  else
    { cells := setG b.cells m.row m.col m.old_value
      cell_types := setT b.cell_types m.row m.col
        (if m.old_value.isSome then some CellType.Player else none) }

/-- GameHistory: bounded, branching undo/redo log. `moves` models the
`VecDeque<Move>` front-to-back. -/
structure GameHistory where
  moves : List Move
  undo_index : Nat
  max_history : Nat
deriving DecidableEq, Repr

/-- GameHistory::new — empty log, cursor 0, capacity 100. -/
def GameHistory.new : GameHistory :=
  { moves := [], undo_index := 0, max_history := 100 }

/-- The first while loop of GameHistory::add_move: pop from the back while
the length exceeds `undo_index`. -/
def truncGo (undo_index : Nat) : Nat → List Move → List Move
  | 0, moves => moves
  | n + 1, moves =>
    if undo_index < moves.length then truncGo undo_index n moves.dropLast
    else moves

/-- The pop-from-the-back while loop, started with enough steps to finish. -/
def truncLoop (moves : List Move) (undo_index : Nat) : List Move :=
  truncGo undo_index moves.length moves

/-- The second while loop of GameHistory::add_move: pop from the front while
the length exceeds `max_history`, decrementing the cursor (not below 0). -/
def evictGo (max_history : Nat) : Nat → List Move → Nat → List Move × Nat
  | 0, moves, undo_index => (moves, undo_index)
  | n + 1, moves, undo_index =>
    if max_history < moves.length then
      evictGo max_history n moves.tail (undo_index - 1)
    else (moves, undo_index)

/-- The pop-from-the-front while loop, started with enough steps to finish. -/
def evictLoop (moves : List Move) (undo_index max_history : Nat) :
    List Move × Nat :=
  evictGo max_history moves.length moves undo_index

/-- GameHistory::add_move — truncate the redo branch, append, advance the
cursor to the end, then keep the log within `max_history`. -/
def GameHistory.add_move (h : GameHistory) (game_move : Move) : GameHistory :=
  let truncated := truncLoop h.moves h.undo_index
  let appended := truncated ++ [game_move]
  let bounded := evictLoop appended appended.length h.max_history
  { moves := bounded.1, undo_index := bounded.2, max_history := h.max_history }

/-- GameHistory::can_undo. -/
def GameHistory.can_undo (h : GameHistory) : Bool :=
  0 < h.undo_index

/-- GameHistory::can_redo. -/
def GameHistory.can_redo (h : GameHistory) : Bool :=
  h.undo_index < h.moves.length

/-- GameHistory::peek_undo. -/
def GameHistory.peek_undo (h : GameHistory) : Option Move :=
  if h.can_undo then h.moves.get? (h.undo_index - 1) else none

/-- GameHistory::peek_redo. -/
def GameHistory.peek_redo (h : GameHistory) : Option Move :=
  if h.can_redo then h.moves.get? h.undo_index else none

/-- GameHistory::mark_undone. -/
def GameHistory.mark_undone (h : GameHistory) : GameHistory :=
  if h.can_undo then { h with undo_index := h.undo_index - 1 } else h

/-- GameHistory::mark_redone. -/
def GameHistory.mark_redone (h : GameHistory) : GameHistory :=
  if h.can_redo then { h with undo_index := h.undo_index + 1 } else h

/-- GameHistory::clear. -/
def GameHistory.clearH (h : GameHistory) : GameHistory :=
  { h with moves := [], undo_index := 0 }

/-- GameSession: elapsed-time accounting and move counter.  Durations and
instants are a logical clock in `Nat`; methods that call `Instant::now()`
take the current time explicitly. -/
structure GameSession where
  started_at : Nat
  elapsed_time : Nat
  move_count : Nat
  is_paused : Bool
  pause_start : Option Nat
deriving DecidableEq, Repr

/-- GameSession::new at clock time `now`. -/
def GameSession.new (now : Nat) : GameSession :=
  { started_at := now, elapsed_time := 0, move_count := 0,
    is_paused := false, pause_start := none }

/-- GameSession::pause at clock time `now`. -/
def GameSession.pause (s : GameSession) (now : Nat) : GameSession :=
  if !s.is_paused then
    { s with is_paused := true, pause_start := some now }
  else s

/-- GameSession::resume — takes `pause_start` and unpauses; the source
neither shifts `started_at` nor touches `elapsed_time` here. -/
def GameSession.resume (s : GameSession) : GameSession :=
  match s.pause_start with
  | some _ => { s with is_paused := false, pause_start := none }
  | none => s

/-- GameSession::current_elapsed at clock time `now`
(`started_at.elapsed()` is `now - started_at`). -/
def GameSession.current_elapsed (s : GameSession) (now : Nat) : Nat :=
  if s.is_paused then s.elapsed_time
  else s.elapsed_time + (now - s.started_at)

/-- The injected randomness source: a stream of choices consumed head first,
reading 0 once exhausted.  Quantifying over every `Rng` captures every
possible behaviour of `thread_rng()`. -/
abbrev Rng := List Nat

/-- One uniform draw below `bound`: the next stream element reduced into
range. -/
def Rng.next (g : Rng) (bound : Nat) : Nat × Rng :=
  (g.headD 0 % bound, g.tail)

/-- rand's `gen_range(lo..=hi)`: a draw in the inclusive range. -/
def Rng.genRange (g : Rng) (lo hi : Nat) : Nat × Rng :=
  let (x, g') := g.next (hi + 1 - lo)
  (lo + x, g')

/-- Swap two positions of a list (Vec::swap); identity off range. -/
def listSwap (l : List α) (i j : Nat) : List α :=
  match l.get? i, l.get? j with
  | some a, some b => (l.set i b).set j a
  | _, _ => l

/-- The Fisher-Yates loop of SliceRandom::shuffle, from index `i` down to 1:
swap position `i` with a drawn position `j ≤ i`. -/
def shuffleAux (l : List α) (g : Rng) : Nat → List α × Rng
  | 0 => (l, g)
  | i + 1 =>
    let (j, g') := g.next (i + 2)
    shuffleAux (listSwap l (i + 1) j) g' i

/-- SliceRandom::shuffle of a whole list. -/
def shuffleList (l : List α) (g : Rng) : List α × Rng :=
  shuffleAux l g (l.length - 1)

/-- SliceRandom::choose: a uniform element of a non-empty list. -/
def chooseRand (l : List α) (dflt : α) (g : Rng) : Option α × Rng :=
  if l.isEmpty then (none, g)
  else
    let (i, g') := g.next l.length
    (some (l.getD i dflt), g')

/-- Solution: the fully-filled reference grid kept for hints. -/
structure Solution where
  cells : List (List Nat)
deriving DecidableEq, Repr

/-- Read `solution.cells[r][c]`. -/
def Solution.getS (s : Solution) (r c : Nat) : Nat :=
  (s.cells.getD r []).getD c 0

/-- Solution::from_board — `some` exactly when the board is complete, copying
every cell value. -/
def Solution.from_board (b : BoardState) : Option Solution :=
  if is_complete b.cells then
    ((List.range GRID_SIZE).mapM fun row =>
      (List.range GRID_SIZE).mapM fun col =>
        getG b.cells row col).map Solution.mk
  else none

/-- get_next_hint — the empty, non-given positions paired with the
solution's value there, in row-major order (the `candidates` vector). -/
def hintCandidates (b : BoardState) (solution : Solution) :
    List (Nat × Nat × Nat) :=
  (List.range GRID_SIZE).flatMap fun row =>
    (List.range GRID_SIZE).filterMap fun col =>
      if (getG b.cells row col).isNone && !b.is_given_cell row col then
        some (row, col, solution.getS row col)
      else none

/-- get_next_hint — a random candidate, or `none` when no cell is both empty
and not given. -/
def get_next_hint (b : BoardState) (solution : Solution) (g : Rng) :
    Option (Nat × Nat × Nat) × Rng :=
  chooseRand (hintCandidates b solution) (0, 0, 0) g

/-- The nested find-the-next-empty-cell scan of the solvers: the first
position of the row-major order whose cell is empty (the nested loops with
an early return translated as a search over the linearized indices). -/
def findEmpty (g : Grid) : Option (Nat × Nat) :=
  ((List.range (GRID_SIZE * GRID_SIZE)).find? fun k =>
    (getG g (k / 9) (k % 9)).isNone).map fun k => (k / 9, k % 9)

/-- One step of solve_with_counter's `for value in 0..GRID_SIZE` loop (the
early `return true` is the short-circuit on the accumulator's bool): place
a valid value, recurse through `rec` threading the counter, backtrack. -/
def solveStep (rec : Grid → Nat → Bool × Grid × Nat) (row col : Nat)
    (r : Bool × Grid × Nat) (value : Nat) : Bool × Grid × Nat :=
  if r.1 then r
  else if is_valid_placement r.2.1 row col value then
    let r2 := rec (setG r.2.1 row col (some value)) r.2.2
    if r2.1 then r2
    else (false, setG r2.2.1 row col none, r2.2.2)
  else r

/-- solve_with_counter — counting backtracking solver: explores every
constraint-satisfying value of the first empty cell, bumps the counter on a
full assignment, and exits early once the counter reaches `max_solutions`.
Returns (the returned bool, the board after the call, the counter). -/
def solve_with_counter : Nat → Grid → Nat → Nat → Bool × Grid × Nat
  | 0, g, count, _ => (false, g, count)
  | fuel + 1, g, count, max_solutions =>
    if max_solutions ≤ count then (false, g, count)
    else
      match findEmpty g with
      | some (row, col) =>
        (List.range GRID_SIZE).foldl
          (solveStep (fun g' c' => solve_with_counter fuel g' c'
            max_solutions) row col) (false, g, count)
      | none => (false, g, count + 1)

/-- validate_unique_solution — exactly one solution found with cap 2. -/
def validate_unique_solution (b : BoardState) : Bool :=
  (solve_with_counter 82 b.cells 0 2).2.2 == 1

/-- One step of fill_board's `for num in numbers` loop (the early
`return true` is the short-circuit on the accumulator's bool): place a
valid value, recurse through `rec`, backtrack on failure. -/
def fillStep (rec : Grid → Rng → Bool × Grid × Rng) (row col : Nat)
    (r : Bool × Grid × Rng) (num : Nat) : Bool × Grid × Rng :=
  if r.1 then r
  else if is_valid_placement r.2.1 row col num then
    let r2 := rec (setG r.2.1 row col (some num)) r.2.2
    if r2.1 then r2
    else (false, setG r2.2.1 row col none, r2.2.2)
  else r

/-- fill_board — randomized backtracking fill of the first empty cell with
the candidate values tried in shuffled order. -/
def fill_board : Nat → Grid → Rng → Bool × Grid × Rng
  | 0, g, rng => (false, g, rng)
  | fuel + 1, g, rng =>
    match findEmpty g with
    | none => (true, g, rng)
    | some (row, col) =>
      let s := shuffleList (List.range GRID_SIZE) rng
      s.1.foldl (fillStep (fill_board fuel) row col) (false, g, s.2)

/-- All 81 cell positions in row-major order. -/
def allPositions : List (Nat × Nat) :=
  (List.range GRID_SIZE).flatMap fun row =>
    (List.range GRID_SIZE).map fun col => (row, col)

/-- The givens count of the generator's logging and acceptance checks:
`cells.iter().flatten().filter(|c| c.is_some()).count()`. -/
def filledCount (g : Grid) : Nat :=
  (g.flatten.filter Option.isSome).length

/-- The enumerate loop of remove_numbers_for_puzzle: the first `givens`
positions are kept and tagged Given, the rest are cleared. -/
def removeLoop : BoardState → List (Nat × Nat) → Nat → Nat → BoardState
  | b, [], _, _ => b
  | b, (row, col) :: rest, i, givens =>
    if i < givens then
      let b1 : BoardState :=
        { b with cell_types := setT b.cell_types row col (some CellType.Given) }
      removeLoop b1 rest (i + 1) givens
    else
      let b1 : BoardState :=
        { cells := setG b.cells row col none,
          cell_types := setT b.cell_types row col none }
      removeLoop b1 rest (i + 1) givens

/-- remove_numbers_for_puzzle — keep a random `givens`-subset of the cells
(everything when `givens ≥ 81`). -/
def remove_numbers_for_puzzle (b : BoardState) (givens : Nat) (g : Rng) :
    BoardState × Rng :=
  if GRID_SIZE * GRID_SIZE ≤ givens then (b, g)
  else
    let s := shuffleList allPositions g
    (removeLoop b s.1 0 givens, s.2)

/-- Difficulty levels for puzzle generation. -/
inductive Difficulty where
  | Easy : Difficulty
  | Medium : Difficulty
  | Hard : Difficulty
  | Expert : Difficulty
deriving DecidableEq, Repr

/-- PuzzleSettings (the Phase 2 placeholder fields are comments in the
source). -/
structure PuzzleSettings where
  difficulty : Difficulty
  require_unique_solution : Bool
  givens_range : Nat × Nat
  seed : Option Nat
  hints_allowed : Bool
  max_hints : Nat
deriving DecidableEq, Repr

/-- The candidate loop of generate_expert_unique_puzzle: tentatively clear
each candidate, keep the removal when uniqueness survives, restore the
original value and origin otherwise; stop at the target removal count. -/
def expertLoop : BoardState → List (Nat × Nat) → Nat → Nat → BoardState
  | b, [], _, _ => b
  | b, (row, col) :: rest, removals_made, target_removals =>
    if target_removals ≤ removals_made then b
    else
      let original_value := getG b.cells row col
      let original_type := getT b.cell_types row col
      let b1 : BoardState := { cells := setG b.cells row col none,
                               cell_types := setT b.cell_types row col none }
      if validate_unique_solution b1 then
        expertLoop b1 rest (removals_made + 1) target_removals
      else
        expertLoop { cells := setG b1.cells row col original_value,
                     cell_types := setT b1.cell_types row col original_type }
          rest removals_made target_removals

/-- The final nested loop of generate_expert_unique_puzzle: tag every
remaining filled cell as Given. -/
def markAllGiven (b : BoardState) : BoardState :=
  { b with cell_types :=
      (List.range GRID_SIZE).foldl (fun t row =>
        (List.range GRID_SIZE).foldl (fun t' col =>
          if (getG b.cells row col).isSome then
            setT t' row col (some CellType.Given)
          else t') t) b.cell_types }

/-- generate_expert_unique_puzzle — iterative uniqueness-preserving clue
removal; returns whether the final givens count lands in the range. -/
def generate_expert_unique_puzzle (b : BoardState) (settings : PuzzleSettings)
    (g : Rng) : Bool × BoardState × Rng :=
  let s := shuffleList allPositions g
  let tg := Rng.genRange s.2 settings.givens_range.1 settings.givens_range.2
  let target_removals := GRID_SIZE * GRID_SIZE - tg.1
  let b2 := expertLoop b s.1 0 target_removals
  let b3 := markAllGiven b2
  let final_givens := filledCount b3.cells
  (decide (settings.givens_range.1 ≤ final_givens) &&
     decide (final_givens ≤ settings.givens_range.2), b3, tg.2)

/-- The `for attempt in 0..max_attempts` loop of
generate_puzzle_with_settings, by remaining attempts. -/
def generateLoop (s : PuzzleSettings) :
    Nat → BoardState → Rng → Option Solution × BoardState × Rng
  | 0, b, g => (none, b, g)
  | n + 1, b, g =>
    let b0 := b.clear
    let f := fill_board 82 b0.cells g
    let b1 : BoardState := { b0 with cells := f.2.1 }
    if !f.1 then generateLoop s n b1 f.2.2
    else
      match Solution.from_board b1 with
      | none => (none, b1, f.2.2)
      | some solution =>
        if s.difficulty == Difficulty.Expert && s.require_unique_solution then
          let e := generate_expert_unique_puzzle b1 s f.2.2
          if e.1 then (some solution, e.2.1, e.2.2)
          else generateLoop s n e.2.1 e.2.2
        else
          let tg := Rng.genRange f.2.2 s.givens_range.1 s.givens_range.2
          let rm := remove_numbers_for_puzzle b1 tg.1 tg.2
          let success := if s.require_unique_solution then
              validate_unique_solution rm.1
            else true
          if success then (some solution, rm.1, rm.2)
          else generateLoop s n rm.1 rm.2

/-- BoardState::generate_puzzle_with_settings — clear, fill, remove clues,
accept or retry, up to 15 attempts when uniqueness is required, 3 otherwise.
Returns (the returned `Option<Solution>`, the board after the call, the
stream). -/
def BoardState.generate_puzzle_with_settings (b : BoardState)
    (settings : PuzzleSettings) (g : Rng) :
    Option Solution × BoardState × Rng :=
  generateLoop settings (if settings.require_unique_solution then 15 else 3)
    b g

/-! Spec-side notions for the uniqueness claim: what it means for a grid to
be a completion of another, and a brute-force enumeration of completions. -/

/-- Spec-side (C3): every value stored in the grid is a valid symbol index
(empty cells read as 0 via getD, which is always in range). -/
def ValuesOk (g : Grid) : Prop :=
  ∀ r, r < 9 → ∀ c, c < 9 → (getG g r c).getD 0 < 9

instance {g : Grid} : Decidable (ValuesOk g) := by
  unfold ValuesOk; infer_instance

/-- Spec-side (C3): every cell of the grid is filled. -/
def FullG (g : Grid) : Prop :=
  ∀ r, r < 9 → ∀ c, c < 9 → (getG g r c).isSome = true

instance {g : Grid} : Decidable (FullG g) := by
  unfold FullG; infer_instance

/-- Spec-side (C3): every filled cell satisfies the placement constraints
against the rest of the grid. -/
def NoConflicts (g : Grid) : Prop :=
  ∀ r, r < 9 → ∀ c, c < 9 →
    ((getG g r c).all fun v => is_valid_placement g r c v) = true

instance {g : Grid} : Decidable (NoConflicts g) := by
  unfold NoConflicts; infer_instance

/-- Spec-side (C3): grid `C` agrees with `g` on every filled cell of `g`. -/
def ExtendsG (g C : Grid) : Prop :=
  ∀ r, r < 9 → ∀ c, c < 9 → (getG g r c).isSome = true →
    getG C r c = getG g r c

instance {g C : Grid} : Decidable (ExtendsG g C) := by
  unfold ExtendsG; infer_instance

/-- Spec-side (C3): a completion of `g` -- a well-formed, fully-filled,
in-range, conflict-free grid extending `g`. -/
def IsCompletionOf (g C : Grid) : Prop :=
  WFm C ∧ FullG C ∧ ValuesOk C ∧ NoConflicts C ∧ ExtendsG g C

instance {g C : Grid} : Decidable (IsCompletionOf g C) := by
  unfold IsCompletionOf; infer_instance

/-- Brute-force enumeration of the completions of a grid, fuel-based on the
number of empty cells; used to count completions. -/
def enumSols : Nat → Grid → List Grid
  | 0, _ => []
  | fuel + 1, g =>
    match findEmpty g with
    | none => [g]
    | some (row, col) =>
      (List.range 9).flatMap fun v =>
        if is_valid_placement g row col v then
          enumSols fuel (setG g row col (some v))
        else []

/-- The number of empty in-range cells, the fuel measure of the solvers. -/
def emptiesIn (g : Grid) : Nat :=
  allPositions.countP fun p => (getG g p.1 p.2).isNone

/-! Concrete fixtures used by witnesses and counterexamples. -/

/-- Row `r` of a fixed valid complete pattern grid
(`(3r + r/3 + c) mod 9`). -/
def patternRow (r : Nat) : List Nat :=
  (List.range 9).map fun c => (3 * r + r / 3 + c) % 9

/-- A fixed valid complete grid as plain values. -/
def patternCells : List (List Nat) := (List.range 9).map patternRow

/-- The same grid as board cells. -/
def patternGrid : Grid := patternCells.map fun row => row.map some

/-- The pattern grid with every value shifted by 3 (a relabelling, so still
a valid complete grid), distinct from the pattern grid. -/
def pattern2Grid : Grid :=
  (List.range 9).map fun r =>
    (List.range 9).map fun c => some ((3 * r + r / 3 + c + 3) % 9)

/-- The all-zeros full board: every cell holds symbol 0. -/
def zeroBoard : BoardState :=
  { cells := fullMatrix (some 0), cell_types := fullMatrix none }

/-- The pattern grid as a reference Solution. -/
def patternSolution : Solution := Solution.mk patternCells

/-- The draw values that make the Fisher-Yates loop turn `arr` into
`target`: at step `i` the element that belongs at slot `i` is at some index
`j ≤ i`; drawing `j` swaps it into place. -/
def fyProg [DecidableEq α] [Inhabited α] (arr target : List α) :
    Nat → List Nat
  | 0 => []
  | i + 1 =>
    let x := target.getD (i + 1) default
    let j := arr.findIdx (fun a => a = x)
    j :: fyProg (listSwap arr (i + 1) j) target i

/-- The full draw list for one shuffle of `arr` into `target`. -/
def fyValues [DecidableEq α] [Inhabited α] (arr target : List α) :
    List Nat :=
  fyProg arr target (arr.length - 1)

/-- The candidate order wanted at cell (r,c) of a crafted fill: the pattern
grid's value first, so the fill never backtracks. -/
def cellPerm (r c : Nat) : List Nat :=
  let v := (patternCells.getD r []).getD c 0
  v :: (List.range 9).filter (fun x => x ≠ v)

/-- The draw stream steering one fill_board run from the empty grid to
`patternGrid` (81 cells, 8 draws each). -/
def fillStream : List Nat :=
  allPositions.flatMap fun p => fyValues (List.range 9) (cellPerm p.1 p.2)

/-- A six-cell unavoidable set of the pattern grid: rows 0 and 1 restricted
to columns 0, 3 and 6 can be swapped row-for-row, so clearing these six
cells leaves at least two completions. -/
def removeSet : List (Nat × Nat) :=
  [(0, 0), (0, 3), (0, 6), (1, 0), (1, 3), (1, 6)]

/-- The removal order wanted for the failing generation: all kept positions
first, the unavoidable set last (hence cleared). -/
def permC1 : List (Nat × Nat) :=
  allPositions.filter (fun p => ¬ p ∈ removeSet) ++ removeSet

/-- The draw stream steering the removal shuffle to `permC1`. -/
def removeStream : List Nat := fyValues allPositions permC1

/-- The draws consumed by one full failing generation attempt: the crafted
fill, one draw for the givens target, the crafted removal shuffle. -/
def attemptSeg : List Nat := fillStream ++ [0] ++ removeStream

/-- `n` copies of the attempt segment, ending in a never-consumed draw that
keeps every intermediate stream non-empty. -/
def c1Segs : Nat → List Nat
  | 0 => [8]
  | n + 1 => attemptSeg ++ c1Segs n

/-- The draw stream of the C1 counterexample: 15 failing attempts. -/
def stream1 : List Nat := c1Segs 15

/-- Easy settings requiring uniqueness with a 75-givens target: the crafted
removal always breaks uniqueness, so generation fails. -/
def S1 : PuzzleSettings :=
  { difficulty := Difficulty.Easy, require_unique_solution := true,
    givens_range := (75, 75), seed := none, hints_allowed := true,
    max_hints := 5 }

/-- The caller's prior board of the C1 counterexample: one player value. -/
def B0 : BoardState :=
  { cells := setG BoardState.new.cells 0 1 (some 7),
    cell_types := setT BoardState.new.cell_types 0 1
      (some CellType.Player) }

/-- The cells left by one failing attempt: the pattern grid with the
unavoidable set cleared. -/
def c1FinalCells : Grid :=
  removeSet.foldl (fun g p => setG g p.1 p.2 none) patternGrid

/-- The cell types left by one failing attempt: the kept 75 positions
tagged Given in removal order, the cleared six untagged. -/
def c1FinalTypes : TypeGrid :=
  removeSet.foldl (fun t p => setT t p.1 p.2 none)
    ((permC1.take 75).foldl (fun t p => setT t p.1 p.2
      (some CellType.Given)) (fullMatrix none))

/-- The board left behind by every failing attempt of the counterexample. -/
def c1Final : BoardState :=
  { cells := c1FinalCells, cell_types := c1FinalTypes }

/-- Settings whose givens range (82,82) exceeds the 81 cells: removal keeps
everything, so an accepted board has 81 filled cells, outside the range. -/
def S2 : PuzzleSettings :=
  { difficulty := Difficulty.Easy, require_unique_solution := false,
    givens_range := (82, 82), seed := none, hints_allowed := true,
    max_hints := 5 }

/-- The draw stream of the single successful C2 attempt. -/
def stream2 : List Nat := fillStream ++ [0]

/-- Settings accepting exactly 81 givens with no uniqueness requirement,
for the C2 witness. -/
def S3 : PuzzleSettings :=
  { difficulty := Difficulty.Easy, require_unique_solution := false,
    givens_range := (81, 81), seed := none, hints_allowed := true,
    max_hints := 5 }


/-- A board whose row 0 holds the value 0 twice (a conflict). -/
def c6Board : Grid :=
  setG (setG (fullMatrix none) 0 0 (some 0)) 0 1 (some 0)

/-- A board with a single Given cell at (2,3). -/
def c5Board : BoardState :=
  { cells := setG (fullMatrix none) 2 3 (some 1),
    cell_types := setT (fullMatrix none) 2 3 (some CellType.Given) }

/-- A history after two committed moves and one undo (the cursor sits before
the redoable second move). -/
def partialUndoHistory : GameHistory :=
  ((GameHistory.new.add_move ⟨0, 0, none, some 1⟩).add_move
    ⟨0, 1, none, some 2⟩).mark_undone

/-- A session created at clock time 0 (never paused, no elapsed credit). -/
def session0 : GameSession := GameSession.new 0

/-- The board produced by the crafted fill: pattern cells, no origins. -/
def patternBoard : BoardState :=
  { cells := patternGrid, cell_types := fullMatrix none }

/-! Basic facts about cell access and update. -/

theorem set_getElem?_self {l : List α} {i : Nat} {a : α} (h : l[i]? = some a) :
    l.set i a = l := by
  induction l generalizing i with
  | nil => simp at h
  | cons x xs ih =>
    cases i with
    | zero => simp_all
    | succ n => simpa using ih (by simpa using h)

theorem matrix_get_set_ne {m : List (List α)} {d : α} {r c r' c' : Nat}
    (h : r' ≠ r ∨ c' ≠ c) (v : α) :
    ((m.set r ((m.getD r []).set c v)).getD r' []).getD c' d =
      (m.getD r' []).getD c' d := by
  by_cases hr : r' = r
  · subst hr
    rcases h with h | h
    · exact absurd rfl h
    · simp only [List.getD_eq_getElem?_getD]
      rcases hg : m[r']? with _ | row
      · simp [List.getElem?_set_self', hg]
      · simp [List.getElem?_set_self', hg, List.getElem?_set_ne (Ne.symm h)]
  · simp [List.getD_eq_getElem?_getD, List.getElem?_set_ne (Ne.symm hr)]

theorem getG_setG_ne {g : Grid} {r c r' c' : Nat}
    (h : r' ≠ r ∨ c' ≠ c) (v : Option Nat) :
    getG (setG g r c v) r' c' = getG g r' c' :=
  matrix_get_set_ne h v

theorem getT_setT_ne {t : TypeGrid} {r c r' c' : Nat}
    (h : r' ≠ r ∨ c' ≠ c) (v : Option CellType) :
    getT (setT t r c v) r' c' = getT t r' c' :=
  matrix_get_set_ne h v

theorem matrix_row_length {m : List (List α)} (h : WFm m) {r : Nat}
    (hr : r < 9) : (m.getD r []).length = 9 := by
  have h9 := h.1
  have hlen : r < m.length := by omega
  have : m.getD r [] ∈ m := by
    simp only [List.getD_eq_getElem?_getD, List.getElem?_eq_getElem hlen]
    exact List.getElem_mem hlen
  exact h.2 _ this

theorem row_length_of_WFm {g : Grid} (h : WFm g) {r : Nat} (hr : r < 9) :
    (g.getD r []).length = 9 :=
  matrix_row_length h hr

theorem matrix_get_set_self {m : List (List α)} {d : α} (h : WFm m)
    {r c : Nat} (hr : r < 9) (hc : c < 9) (v : α) :
    ((m.set r ((m.getD r []).set c v)).getD r []).getD c d = v := by
  have h9 := h.1
  have hlen : r < m.length := by omega
  have hrowlen : c < (m.getD r []).length := by
    have := matrix_row_length h hr; omega
  have h1 : (m.set r ((m.getD r []).set c v)).getD r [] =
      (m.getD r []).set c v := by
    rw [List.getD_eq_getElem?_getD, List.getElem?_set_self hlen]
    rfl
  have h2 : ((m.getD r []).set c v).getD c d = v := by
    rw [List.getD_eq_getElem?_getD, List.getElem?_set_self hrowlen]
    rfl
  rw [h1, h2]

theorem getG_setG_self {g : Grid} (h : WFm g) {r c : Nat}
    (hr : r < 9) (hc : c < 9) (v : Option Nat) :
    getG (setG g r c v) r c = v :=
  matrix_get_set_self h hr hc v

theorem getT_setT_self {t : TypeGrid} (h : WFm t) {r c : Nat}
    (hr : r < 9) (hc : c < 9) (v : Option CellType) :
    getT (setT t r c v) r c = v :=
  matrix_get_set_self h hr hc v

theorem matrix_set_cancel {m : List (List α)} {d : α} {r c : Nat} {v : α}
    (h : (m.getD r []).getD c d = v) :
    m.set r ((m.getD r []).set c v) = m := by
  rcases Nat.lt_or_ge r m.length with hr | hr
  · rcases hg : m[r]? with _ | row
    · rw [List.getElem?_eq_none_iff] at hg; omega
    · have hrow : m.getD r [] = row := by
        simp [List.getD_eq_getElem?_getD, hg]
      rw [hrow]
      rcases Nat.lt_or_ge c row.length with hc | hc
      · have hcv : row[c]? = some v := by
          rw [← h, hrow]
          simp [List.getD_eq_getElem?_getD, List.getElem?_eq_getElem hc]
        rw [set_getElem?_self hcv, set_getElem?_self hg]
      · rw [List.set_eq_of_length_le hc, set_getElem?_self hg]
  · rw [List.set_eq_of_length_le hr]

theorem setG_cancel {g : Grid} {r c : Nat} {v : Option Nat}
    (h : getG g r c = v) : setG g r c v = g :=
  matrix_set_cancel h

theorem setT_cancel {t : TypeGrid} {r c : Nat} {v : Option CellType}
    (h : getT t r c = v) : setT t r c v = t :=
  matrix_set_cancel h

/-- The same-row/column/box relation of the three constraint loops. -/
def sameUnit (r c row col : Nat) : Prop :=
  r = row ∨ c = col ∨ (r / 3 = row / 3 ∧ c / 3 = col / 3)

instance {r c row col : Nat} : Decidable (sameUnit r c row col) := by
  unfold sameUnit; infer_instance

/-- The characterization of is_valid_placement shared by several claims:
valid iff no cell other than `(row, col)` itself in the same row, column or
box holds `value`. -/
theorem valid_iff {g : Grid} {row col value : Nat}
    (hrow : row < 9) (hcol : col < 9) :
    is_valid_placement g row col value = true ↔
      ∀ r c, r < 9 → c < 9 → (r, c) ≠ (row, col) → sameUnit r c row col →
        getG g r c ≠ some value := by
  unfold is_valid_placement sameUnit GRID_SIZE
  simp only [Bool.and_eq_true, List.all_eq_true, List.mem_range,
    Bool.or_eq_true, beq_iff_eq, Bool.not_eq_true', beq_eq_false_iff_ne,
    ne_eq, Prod.mk.injEq, not_and]
  constructor
  · rintro ⟨⟨hrw, hcl⟩, hbx⟩ r c hr hc hne hunit
    rcases hunit with h | h | ⟨h1, h2⟩
    · subst h
      rcases hrw c hc with h | h
      · exact absurd h (hne rfl)
      · exact h
    · subst h
      rcases hcl r hr with h | h
      · exact absurd rfl (hne h)
      · exact h
    · have hb := hbx (r - (row / 3) * 3) (by omega) (c - (col / 3) * 3)
        (by omega)
      have hr' : row / 3 * 3 + (r - row / 3 * 3) = r := by omega
      have hc' : col / 3 * 3 + (c - col / 3 * 3) = c := by omega
      rw [hr', hc'] at hb
      rcases hb with ⟨hx, hx'⟩ | hx
      · exact absurd hx' (hne hx)
      · exact hx
  · intro h
    refine ⟨⟨fun c hc => ?_, fun r hr => ?_⟩, fun dr hdr dc hdc => ?_⟩
    · by_cases hcc : c = col
      · exact Or.inl hcc
      · exact Or.inr (h row c hrow hc (fun _ => hcc) (Or.inl rfl))
    · by_cases hrr : r = row
      · exact Or.inl hrr
      · exact Or.inr (h r col hr hcol (fun hx => absurd hx hrr)
          (Or.inr (Or.inl rfl)))
    · by_cases hself : row / 3 * 3 + dr = row ∧ col / 3 * 3 + dc = col
      · exact Or.inl ⟨hself.1, hself.2⟩
      · refine Or.inr (h _ _ (by omega) (by omega) ?_ ?_)
        · intro h1 h2
          exact hself ⟨h1, h2⟩
        · exact Or.inr (Or.inr ⟨by omega, by omega⟩)

/-! Claim C4: cycle_cell's value cycle. -/

/-- C4: for every non-Given in-range cell and every `num_emojis = n ≥ 1`,
`cycle_cell` advances the stored value along
`None -> Some 0 -> Some 1 -> ... -> Some (n-1) -> Some 0 -> ...`; the new
value is always a `some` (cycling never returns to the empty state once a
value has been set), and the returned `Option Move` is `some` carrying the
old and the new value exactly when the stored value changed, else `none`
(with the board unchanged). -/
theorem cycle_cell_spec :
    ∀ (b : BoardState) (row col n : Nat), WFb b → row < 9 → col < 9 →
    b.is_given_cell row col = false → 1 ≤ n →
    (getG (b.cycle_cell row col n).1.cells row col =
       some (match getG b.cells row col with
             | none => 0
             | some idx => (idx + 1) % n)) ∧
    ((getG (b.cycle_cell row col n).1.cells row col).isSome = true) ∧
    (getG b.cells row col = none →
       (b.cycle_cell row col n).2 = some ⟨row, col, none, some 0⟩) ∧
    (∀ idx, getG b.cells row col = some idx → (idx + 1) % n ≠ idx →
       (b.cycle_cell row col n).2 =
         some ⟨row, col, some idx, some ((idx + 1) % n)⟩) ∧
    (∀ idx, getG b.cells row col = some idx → (idx + 1) % n = idx →
       (b.cycle_cell row col n).2 = none ∧ (b.cycle_cell row col n).1 = b) := by
  intro b row col n hwf hr hc hgiv hn
  unfold BoardState.is_given_cell at hgiv
  rcases hov : getG b.cells row col with _ | idx
  · have hcyc : b.cycle_cell row col n =
        ({ cells := setG b.cells row col (some 0),
           cell_types := setT b.cell_types row col (some CellType.Player) },
         some ⟨row, col, none, some 0⟩) := by
      simp [BoardState.cycle_cell, hgiv, hov]
    rw [hcyc]
    refine ⟨getG_setG_self hwf.1 hr hc _, ?_, fun _ => rfl, ?_, ?_⟩
    · rw [getG_setG_self hwf.1 hr hc]; rfl
    · intro idx h; cases h
    · intro idx h; cases h
  · by_cases heq : (idx + 1) % n = idx
    · have hcyc : b.cycle_cell row col n = (b, none) := by
        simp [BoardState.cycle_cell, hgiv, hov, heq]
      rw [hcyc]
      refine ⟨?_, by rw [hov]; rfl, ?_, ?_, ?_⟩
      · rw [hov]
        show some idx = some ((idx + 1) % n)
        rw [heq]
      · intro h; cases h
      · intro idx' h hne
        injection h with h; subst h
        exact absurd heq hne
      · intro idx' h _
        exact ⟨rfl, rfl⟩
    · have hcyc : b.cycle_cell row col n =
          ({ cells := setG b.cells row col (some ((idx + 1) % n)),
             cell_types := setT b.cell_types row col (some CellType.Player) },
           some ⟨row, col, some idx, some ((idx + 1) % n)⟩) := by
        simp [BoardState.cycle_cell, hgiv, hov, Ne.symm heq]
      rw [hcyc]
      refine ⟨getG_setG_self hwf.1 hr hc _, ?_, ?_, ?_, ?_⟩
      · rw [getG_setG_self hwf.1 hr hc]; rfl
      · intro h; cases h
      · intro idx' h hne
        injection h with h; subst h
        rfl
      · intro idx' h heq'
        injection h with h; subst h
        exact absurd heq' heq

/-- C4 witness: three symbols, cell (0,0) starting empty; the first cycle's
move and value come from the theorem, and the full four-cycle scenario
`None -> 0 -> 1 -> 2 -> 0` (the fourth cycle wrapping to 0, not to empty)
is checked on the concrete boards. -/
theorem cycle_cell_spec_witness :
    getG ((BoardState.new.cycle_cell 0 0 3).1).cells 0 0 = some 0 ∧
    ((BoardState.new.cycle_cell 0 0 3).2 = some ⟨0, 0, none, some 0⟩ ∧
     (((BoardState.new.cycle_cell 0 0 3).1).cycle_cell 0 0 3).2 =
       some ⟨0, 0, some 0, some 1⟩ ∧
     ((((BoardState.new.cycle_cell 0 0 3).1).cycle_cell 0 0 3).1.cycle_cell
        0 0 3).2 = some ⟨0, 0, some 1, some 2⟩ ∧
     (((((BoardState.new.cycle_cell 0 0 3).1).cycle_cell 0 0 3).1.cycle_cell
        0 0 3).1.cycle_cell 0 0 3).2 = some ⟨0, 0, some 2, some 0⟩) :=
  ⟨(cycle_cell_spec BoardState.new 0 0 3 (by decide) (by decide) (by decide)
      (by decide) (by decide)).1,
   by decide⟩

/-! Claim C5: Given cells are invariant under cycle, apply, undo and redo. -/

/-- C5: on a Given cell, `cycle_cell` returns no move and leaves the board
unchanged, and `apply_move` (also used for redo) and `undo_move` applied to
any move targeting that cell leave the board unchanged — the refusal is
silent, not an error. -/
theorem given_cell_immutable :
    ∀ (b : BoardState) (row col n : Nat) (m : Move),
    b.is_given_cell row col = true → m.row = row → m.col = col →
    b.cycle_cell row col n = (b, none) ∧
    b.apply_move m = b ∧ b.undo_move m = b := by
  intro b row col n m hgiv hrow hcol
  unfold BoardState.is_given_cell at hgiv
  refine ⟨?_, ?_, ?_⟩
  · unfold BoardState.cycle_cell
    rw [hgiv]
    rfl
  · unfold BoardState.apply_move
    rw [hrow, hcol, hgiv]
    rfl
  · unfold BoardState.undo_move
    rw [hrow, hcol, hgiv]
    rfl

/-- C5 witness: a concrete board with a Given cell at (2,3). -/
theorem given_cell_immutable_witness :
    c5Board.cycle_cell 2 3 9 = (c5Board, none) ∧
    c5Board.apply_move ⟨2, 3, none, some 5⟩ = c5Board ∧
    c5Board.undo_move ⟨2, 3, none, some 5⟩ = c5Board :=
  given_cell_immutable c5Board 2 3 9 ⟨2, 3, none, some 5⟩ (by decide) rfl rfl

/-! Claim C6: the self-exclusion of is_valid_placement. -/

/-- C6 counterexample: with the value 0 stored at both (0,0) and (0,1),
checking cell (0,0) against its own already-stored value 0 fails — so the
claim's sentence "checking a cell against its own already-stored value
always succeeds" is false as stated. -/
theorem valid_own_value_counterexample :
    getG c6Board 0 0 = some 0 ∧
    is_valid_placement c6Board 0 0 0 = false := by
  decide

/-- C6 amended: `is_valid_placement g row col value` is true iff no cell
other than (row,col) itself — self-exclusion by exact coordinate identity —
in the same row, column or box holds `value`; consequently the result never
depends on the cell's own occupancy (writing anything at (row,col) leaves
the check unchanged), and checking a cell against its own stored value
succeeds whenever no other cell of its units holds that value. -/
theorem pair_ne_split {r c row col : Nat} (hne : (r, c) ≠ (row, col)) :
    r ≠ row ∨ c ≠ col := by
  by_cases hx : r = row
  · right
    intro hcc
    exact hne (by rw [hx, hcc])
  · left
    exact hx

theorem bool_eq_of_iff {a b : Bool} (h : a = true ↔ b = true) : a = b := by
  cases a <;> cases b <;> simp_all

theorem valid_placement_spec :
    ∀ (g : Grid) (row col value : Nat), row < 9 → col < 9 →
    (is_valid_placement g row col value = true ↔
      ∀ r c, r < 9 → c < 9 → (r, c) ≠ (row, col) → sameUnit r c row col →
        getG g r c ≠ some value) ∧
    (∀ w, is_valid_placement (setG g row col w) row col value =
        is_valid_placement g row col value) := by
  intro g row col value hr hc
  refine ⟨valid_iff hr hc, fun w => ?_⟩
  refine bool_eq_of_iff ?_
  rw [valid_iff hr hc, valid_iff hr hc]
  constructor <;> intro h r c hr' hc' hne hunit
  · have h2 := h r c hr' hc' hne hunit
    rwa [getG_setG_ne (pair_ne_split hne) w] at h2
  · rw [getG_setG_ne (pair_ne_split hne) w]
    exact h r c hr' hc' hne hunit

/-- C6 witness: the amended characterization at board `c6Board`, cell (0,0),
value 0. -/
theorem valid_placement_spec_witness :
    (is_valid_placement c6Board 0 0 0 = true ↔
      ∀ r c, r < 9 → c < 9 → (r, c) ≠ (0, 0) → sameUnit r c 0 0 →
        getG c6Board r c ≠ some 0) ∧
    (∀ w, is_valid_placement (setG c6Board 0 0 w) 0 0 0 =
        is_valid_placement c6Board 0 0 0) :=
  valid_placement_spec c6Board 0 0 0 (by decide) (by decide)

/-! Claim C7: get_conflicts and is_complete. -/

/-- Membership characterization of get_conflicts. -/
theorem mem_conflicts {g : Grid} {r c : Nat} :
    (r, c) ∈ get_conflicts g ↔
      r < 9 ∧ c < 9 ∧ ∃ v, getG g r c = some v ∧
        is_valid_placement g r c v = false := by
  unfold get_conflicts GRID_SIZE
  simp only [List.mem_flatMap, List.mem_filterMap, List.mem_range]
  constructor
  · rintro ⟨row, hrow, col, hcol, hmc⟩
    split at hmc
    · next v hv =>
      split at hmc
      · cases hmc
      · next hnv =>
        injection hmc with h1
        obtain ⟨rfl, rfl⟩ := Prod.mk.injEq .. ▸ h1
        exact ⟨hrow, hcol, v, hv, by simpa using hnv⟩
    · cases hmc
  · rintro ⟨hr, hc, v, hv, hnv⟩
    refine ⟨r, hr, c, hc, ?_⟩
    rw [hv]
    simp [hnv]

/-- C7: get_conflicts returns exactly the filled in-range positions whose
value fails is_valid_placement; it is empty iff every filled cell's value is
consistent with every other filled cell sharing its row, column or box; and
is_complete is true iff all 81 cells are filled and get_conflicts is empty. -/
theorem conflicts_and_complete_spec :
    ∀ g : Grid,
    (∀ r c : Nat, (r, c) ∈ get_conflicts g ↔
       r < 9 ∧ c < 9 ∧ ∃ v, getG g r c = some v ∧
         is_valid_placement g r c v = false) ∧
    (get_conflicts g = [] ↔
       ∀ r c r' c' v, r < 9 → c < 9 → r' < 9 → c' < 9 →
         (r', c') ≠ (r, c) → sameUnit r' c' r c →
         getG g r c = some v → getG g r' c' ≠ some v) ∧
    (is_complete g = true ↔
       ((∀ r c, r < 9 → c < 9 → (getG g r c).isSome = true) ∧
        get_conflicts g = [])) := by
  intro g
  refine ⟨fun r c => mem_conflicts, ?_, ?_⟩
  · constructor
    · intro hnil r c r' c' v hr hc hr' hc' hne hunit hv
      intro hv'
      have hmem : (r, c) ∈ get_conflicts g := by
        rw [mem_conflicts]
        refine ⟨hr, hc, v, hv, ?_⟩
        have : ¬ is_valid_placement g r c v = true := by
          rw [valid_iff hr hc]
          intro hall
          exact hall r' c' hr' hc' hne hunit hv'
        simpa using this
      rw [hnil] at hmem
      cases hmem
    · intro hpw
      rw [List.eq_nil_iff_forall_not_mem]
      rintro ⟨r, c⟩ hmem
      rw [mem_conflicts] at hmem
      obtain ⟨hr, hc, v, hv, hnv⟩ := hmem
      have : ¬ is_valid_placement g r c v = true := by simp [hnv]
      rw [valid_iff hr hc] at this
      push_neg at this
      obtain ⟨r', c', hr', hc', hne, hunit, hv'⟩ := this
      exact hpw r c r' c' v hr hc hr' hc' hne hunit hv hv'
  · unfold is_complete GRID_SIZE
    simp only [Bool.and_eq_true, List.all_eq_true, List.mem_range,
      List.isEmpty_iff]
    constructor
    · rintro ⟨h1, h2⟩
      exact ⟨fun r c hr hc => h1 r hr c hc, h2⟩
    · rintro ⟨h1, h2⟩
      exact ⟨fun r hr c hc => h1 r c hr hc, h2⟩

/-! Claim C8: the move history invariants and add_move semantics. -/

theorem truncGo_eq : ∀ (n : Nat) (l : List Move) (idx : Nat),
    l.length ≤ n → truncGo idx n l = l.take idx := by
  intro n
  induction n with
  | zero =>
    intro l idx hl
    have : l = [] := List.eq_nil_of_length_eq_zero (Nat.le_zero.mp hl)
    subst this
    simp [truncGo]
  | succ n ih =>
    intro l idx hl
    unfold truncGo
    by_cases hlt : idx < l.length
    · rw [if_pos hlt, ih _ _ (by simp [List.length_dropLast]; omega)]
      rw [List.dropLast_eq_take, List.take_take]
      congr 1
      omega
    · rw [if_neg hlt, List.take_of_length_le (by omega)]

theorem truncLoop_eq (l : List Move) (idx : Nat) :
    truncLoop l idx = l.take idx :=
  truncGo_eq _ _ _ le_rfl

theorem evictGo_eq : ∀ (n : Nat) (l : List Move) (idx mh : Nat),
    l.length ≤ n →
    evictGo mh n l idx =
      (l.drop (l.length - mh), idx - (l.length - mh)) := by
  intro n
  induction n with
  | zero =>
    intro l idx mh hl
    have : l = [] := List.eq_nil_of_length_eq_zero (Nat.le_zero.mp hl)
    subst this
    simp [evictGo]
  | succ n ih =>
    intro l idx mh hl
    unfold evictGo
    by_cases hlt : mh < l.length
    · rw [if_pos hlt, ih _ _ _ (by simp [List.length_tail]; omega)]
      rw [List.drop_tail, List.length_tail]
      have h1 : l.length - 1 - mh + 1 = l.length - mh := by omega
      have h2 : idx - 1 - (l.length - 1 - mh) = idx - (l.length - mh) := by
        omega
      rw [h1, h2]
    · rw [if_neg hlt]
      have : l.length - mh = 0 := by omega
      rw [this]
      simp

theorem add_move_eq (h : GameHistory) (m : Move) :
    h.add_move m =
      { moves := (h.moves.take h.undo_index ++ [m]).drop
          ((h.moves.take h.undo_index ++ [m]).length - h.max_history),
        undo_index := (h.moves.take h.undo_index ++ [m]).length -
          ((h.moves.take h.undo_index ++ [m]).length - h.max_history),
        max_history := h.max_history } := by
  have evictLoop_eq : ∀ (l : List Move) (idx mh : Nat),
      evictLoop l idx mh = (l.drop (l.length - mh), idx - (l.length - mh)) :=
    fun l idx mh => evictGo_eq _ _ _ _ le_rfl
  simp only [GameHistory.add_move, truncLoop_eq, evictLoop_eq]

/-- C8: every history operation preserves `undo_index ≤ moves.length`;
`add_move` truncates the entries at or after the cursor, appends the move
and puts the cursor at the new end (so redo is never possible right after
`add_move`, also after a partial undo), evicting from the front — cursor
decremented, never below zero — whenever the length would exceed
`max_history` (100 for `GameHistory::new`), keeping the length within
`max_history`. -/
theorem history_spec :
    ∀ (h : GameHistory) (m : Move), h.undo_index ≤ h.moves.length →
    GameHistory.new.max_history = 100 ∧
    ((h.add_move m).undo_index ≤ (h.add_move m).moves.length ∧
     h.mark_undone.undo_index ≤ h.mark_undone.moves.length ∧
     h.mark_redone.undo_index ≤ h.mark_redone.moves.length ∧
     h.clearH.undo_index ≤ h.clearH.moves.length) ∧
    ((h.add_move m).moves =
       (h.moves.take h.undo_index ++ [m]).drop
         ((h.undo_index + 1) - h.max_history)) ∧
    ((h.add_move m).undo_index = (h.add_move m).moves.length) ∧
    ((h.add_move m).can_redo = false) ∧
    ((h.add_move m).undo_index =
       (h.undo_index + 1) - ((h.undo_index + 1) - h.max_history)) ∧
    ((h.add_move m).moves.length ≤ h.max_history) := by
  intro h m hinv
  have htlen : (h.moves.take h.undo_index ++ [m]).length =
      h.undo_index + 1 := by
    simp [List.length_take]
    omega
  have hlen2 : (h.add_move m).moves.length =
      (h.undo_index + 1) - ((h.undo_index + 1) - h.max_history) := by
    rw [add_move_eq]
    simp only [List.length_drop, htlen]
  have hundo : (h.add_move m).undo_index =
      (h.undo_index + 1) - ((h.undo_index + 1) - h.max_history) := by
    rw [add_move_eq]
    simp only [htlen]
  refine ⟨rfl, ⟨?_, ?_, ?_, ?_⟩, ?_, ?_, ?_, hundo, ?_⟩
  · rw [hlen2, hundo]
  · unfold GameHistory.mark_undone GameHistory.can_undo
    split
    · simp
      omega
    · simpa using hinv
  · unfold GameHistory.mark_redone GameHistory.can_redo
    split
    · next hlt =>
      simp at hlt ⊢
      omega
    · simpa using hinv
  · simp [GameHistory.clearH]
  · rw [add_move_eq]
    simp only [htlen]
  · rw [hlen2, hundo]
  · unfold GameHistory.can_redo
    rw [hlen2, hundo]
    simp
  · rw [hlen2]
    omega

/-- C8 witness: after two moves and one undo, adding a new move discards the
redo branch — `can_redo` is false. -/
theorem history_spec_witness :
    (partialUndoHistory.add_move ⟨1, 1, none, some 0⟩).can_redo = false :=
  (history_spec partialUndoHistory ⟨1, 1, none, some 0⟩
    (by decide)).2.2.2.2.1

/-! Claim C10: pause/resume elapsed-time accounting (code bug). -/

/-- C10, behaviour at the failing input: a session starts at time 0, pauses
at time 5 and resumes at time 10.  While paused it reports 0 elapsed (the 5
active units are not banked into `elapsed_time`), and read at time 10 right
after the resume it reports 10 — the paused interval 5..10 IS counted,
because `resume` neither shifts `started_at` nor updates `elapsed_time`.
The claim (and the source's own comment in `resume`) requires the answer
`elapsed-at-pause + active-since-resume = 0 + 0 = 0`. -/
theorem session_counts_paused_time :
    ((session0.pause 5).resume.current_elapsed 10 = 10) ∧
    ((session0.pause 5).current_elapsed 5 = 0) ∧
    ((session0.pause 5).resume.current_elapsed 10 ≠
      (session0.pause 5).current_elapsed 5 + (10 - 10)) := by
  decide

/-! Claim C9: the hint oracle. -/

/-- Membership characterization of the hint candidate list. -/
theorem mem_hintCandidates {b : BoardState} {sol : Solution}
    {r c v : Nat} :
    (r, c, v) ∈ hintCandidates b sol ↔
      r < 9 ∧ c < 9 ∧ getG b.cells r c = none ∧
        b.is_given_cell r c = false ∧ v = sol.getS r c := by
  unfold hintCandidates GRID_SIZE
  simp only [List.mem_flatMap, List.mem_filterMap, List.mem_range]
  constructor
  · rintro ⟨row, hrow, col, hcol, hmc⟩
    split at hmc
    · next hcond =>
      simp only [Option.some.injEq, Prod.mk.injEq] at hmc
      obtain ⟨rfl, rfl, h3⟩ := hmc
      subst h3
      simp only [Bool.and_eq_true, Bool.not_eq_true',
        Option.isNone_iff_eq_none] at hcond
      exact ⟨hrow, hcol, hcond.1, hcond.2, rfl⟩
    · cases hmc
  · rintro ⟨hr, hc, hempty, hgiv, rfl⟩
    exact ⟨r, hr, c, hc, by simp [hempty, hgiv]⟩

/-- C9: whenever `get_next_hint` returns a hint (r,c,v), cell (r,c) is an
empty, non-Given in-range cell and `v` is the reference solution's value
there; and it returns none exactly when no cell is both empty and not
Given. -/
theorem hint_spec :
    ∀ (b : BoardState) (sol : Solution) (g : Rng),
    ((get_next_hint b sol g).1 = none ↔
      ∀ r c, r < 9 → c < 9 → getG b.cells r c = none →
        b.is_given_cell r c = true) ∧
    (∀ r c v, (get_next_hint b sol g).1 = some (r, c, v) →
      r < 9 ∧ c < 9 ∧ getG b.cells r c = none ∧
        b.is_given_cell r c = false ∧ v = sol.getS r c) := by
  intro b sol g
  unfold get_next_hint chooseRand
  constructor
  · by_cases hemp : (hintCandidates b sol).isEmpty
    · simp only [hemp, if_true]
      constructor
      · intro _ r c hr hc hempty
        by_cases hgiv : b.is_given_cell r c
        · exact hgiv
        · exfalso
          have hmem : (r, c, sol.getS r c) ∈ hintCandidates b sol :=
            mem_hintCandidates.mpr
              ⟨hr, hc, hempty, by simpa using hgiv, rfl⟩
          rw [List.isEmpty_iff.mp hemp] at hmem
          cases hmem
      · intro _
        trivial
    · simp only [hemp, Bool.false_eq_true, if_false]
      constructor
      · intro hcon
        cases hcon
      · intro hall
        exfalso
        rcases hne : hintCandidates b sol with _ | ⟨⟨r, c, v⟩, rest⟩
        · rw [hne] at hemp
          exact hemp rfl
        · have hmem : (r, c, v) ∈ hintCandidates b sol := by
            rw [hne]
            exact List.mem_cons_self _ _
          obtain ⟨hr, hc, hempty, hgiv, _⟩ := mem_hintCandidates.mp hmem
          rw [hall r c hr hc hempty] at hgiv
          cases hgiv
  · intro r c v hsome
    by_cases hemp : (hintCandidates b sol).isEmpty
    · rw [if_pos hemp] at hsome
      cases hsome
    · rw [if_neg hemp] at hsome
      injection hsome with h1
      have hlen : 0 < (hintCandidates b sol).length := by
        rcases hne : hintCandidates b sol with _ | ⟨x, rest⟩
        · rw [hne] at hemp
          exact absurd rfl hemp
        · simp [hne]
      have hidx : List.headD g 0 % (hintCandidates b sol).length <
          (hintCandidates b sol).length := Nat.mod_lt _ hlen
      have hmem : (hintCandidates b sol).getD
          (List.headD g 0 % (hintCandidates b sol).length) (0, 0, 0) ∈
            hintCandidates b sol := by
        rw [List.getD_eq_getElem?_getD,
          List.getElem?_eq_getElem hidx]
        exact List.getElem_mem hidx
      rw [h1] at hmem
      exact mem_hintCandidates.mp hmem

/-- C9 witness: on the empty board with no Given cells and draw stream [],
the hint names cell (0,0) with the pattern solution's value there. -/
theorem hint_spec_witness :
    (get_next_hint BoardState.new patternSolution []).1 =
      some (0, 0, 0) ∧
    (0 < 9 ∧ 0 < 9 ∧ getG BoardState.new.cells 0 0 = none ∧
      BoardState.new.is_given_cell 0 0 = false ∧
      0 = patternSolution.getS 0 0) :=
  ⟨by decide,
   (hint_spec BoardState.new patternSolution []).2 0 0 0 (by decide)⟩

/-! Stream bookkeeping: a computation that ends with a non-empty stream
consumed only a prefix, so appending to the stream appends to the
leftover.  An empty stream stays empty through every consumer. -/

theorem shuffleAux_nil_rng : ∀ (i : Nat) (l : List α),
    (shuffleAux l ([] : Rng) i).2 = [] := by
  intro i
  induction i with
  | zero => intro l; rfl
  | succ i ih =>
    intro l
    simp only [shuffleAux, Rng.next]
    exact ih _

theorem fill_fold_nil_rng :
    ∀ (vs : List Nat) (fuel row col : Nat) (acc : Bool × Grid × Rng),
    (∀ g' : Grid, (fill_board fuel g' []).2.2 = []) → acc.2.2 = [] →
    ((vs.foldl (fillStep (fill_board fuel) row col) acc).2.2 = []) := by
  intro vs
  induction vs with
  | nil =>
    intro fuel row col acc _ hacc
    exact hacc
  | cons v vs ihv =>
    intro fuel row col acc hfuel hacc
    rcases acc with ⟨b, g0, rng⟩
    simp only at hacc
    subst hacc
    rw [List.foldl_cons]
    by_cases hb : b
    · subst hb
      have hstep : fillStep (fill_board fuel) row col (true, g0, []) v =
          (true, g0, []) := by
        simp [fillStep]
      rw [hstep]
      exact ihv fuel row col _ hfuel rfl
    · have hb' : b = false := Bool.eq_false_iff.mpr hb
      subst hb'
      by_cases hv : is_valid_placement g0 row col v
      · have hstep : fillStep (fill_board fuel) row col (false, g0, []) v =
            (let r2 := fill_board fuel (setG g0 row col (some v)) []
             if r2.1 then r2
             else (false, setG r2.2.1 row col none, r2.2.2)) := by
          simp [fillStep, hv]
        rw [hstep]
        have hr2 : (fill_board fuel (setG g0 row col (some v)) []).2.2 = [] :=
          hfuel _
        by_cases hfound : (fill_board fuel (setG g0 row col (some v)) []).1
        · simp only [hfound, if_true]
          rcases hval : fill_board fuel (setG g0 row col (some v)) [] with
            ⟨b2, g2, rng2⟩
          rw [hval] at hr2
          simp only at hr2
          subst hr2
          exact ihv fuel row col _ hfuel rfl
        · have hfound' : (fill_board fuel (setG g0 row col (some v)) []).1 =
              false := Bool.eq_false_iff.mpr hfound
          simp only [hfound', Bool.false_eq_true, if_false]
          exact ihv fuel row col _ hfuel (by simpa using hr2)
      · have hstep : fillStep (fill_board fuel) row col (false, g0, []) v =
            (false, g0, []) := by
          simp [fillStep, hv]
        rw [hstep]
        exact ihv fuel row col _ hfuel rfl

theorem fill_nil_rng : ∀ (fuel : Nat) (g : Grid),
    (fill_board fuel g []).2.2 = [] := by
  intro fuel
  induction fuel with
  | zero => intro g; rfl
  | succ fuel ih =>
    intro g
    unfold fill_board
    rcases hfe : findEmpty g with _ | ⟨row, col⟩
    · rfl
    · exact fill_fold_nil_rng _ fuel row col _ ih (shuffleAux_nil_rng _ _)

theorem next_append {s : Rng} (hs : s ≠ []) (y : Rng) (b : Nat) :
    Rng.next (s ++ y) b = ((Rng.next s b).1, (Rng.next s b).2 ++ y) := by
  cases s with
  | nil => exact absurd rfl hs
  | cons a t => rfl

theorem shuffleAux_append : ∀ (i : Nat) (l : List α) (s y : Rng),
    (shuffleAux l s i).2 ≠ [] →
    shuffleAux l (s ++ y) i =
      ((shuffleAux l s i).1, (shuffleAux l s i).2 ++ y) := by
  intro i
  induction i with
  | zero =>
    intro l s y _
    rfl
  | succ i ih =>
    intro l s y h
    cases s with
    | nil => exact absurd (shuffleAux_nil_rng _ _) h
    | cons a t =>
      have hstep : ∀ (g : Rng),
          shuffleAux l (a :: g) (i + 1) =
            shuffleAux (listSwap l (i + 1) (a % (i + 2))) g i := by
        intro g
        simp [shuffleAux, Rng.next]
      rw [List.cons_append, hstep, hstep]
      rw [hstep] at h
      exact ih _ t y h

theorem shuffleList_append (l : List α) (s y : Rng)
    (h : (shuffleList l s).2 ≠ []) :
    shuffleList l (s ++ y) =
      ((shuffleList l s).1, (shuffleList l s).2 ++ y) :=
  shuffleAux_append _ _ _ _ h

theorem fill_append : ∀ (fuel : Nat) (g : Grid) (s y : Rng),
    (fill_board fuel g s).2.2 ≠ [] →
    fill_board fuel g (s ++ y) =
      ((fill_board fuel g s).1, (fill_board fuel g s).2.1,
        (fill_board fuel g s).2.2 ++ y) := by
  intro fuel
  induction fuel with
  | zero =>
    intro g s y _
    rfl
  | succ fuel ih =>
    intro g s y h
    have hfold : ∀ (vs : List Nat) (row col : Nat)
        (acc : Bool × Grid × Rng),
        ((vs.foldl (fillStep (fill_board fuel) row col) acc).2.2 ≠ []) →
        vs.foldl (fillStep (fill_board fuel) row col)
          (acc.1, acc.2.1, acc.2.2 ++ y) =
          ((vs.foldl (fillStep (fill_board fuel) row col) acc).1,
           (vs.foldl (fillStep (fill_board fuel) row col) acc).2.1,
           (vs.foldl (fillStep (fill_board fuel) row col) acc).2.2 ++ y) := by
      intro vs
      induction vs with
      | nil =>
        intro row col acc _
        rfl
      | cons v vs ihv =>
        intro row col acc hne
        rcases acc with ⟨b, g0, rng⟩
        rw [List.foldl_cons] at hne ⊢
        rw [List.foldl_cons]
        by_cases hb : b
        · subst hb
          have h1 : fillStep (fill_board fuel) row col (true, g0, rng ++ y)
              v = (true, g0, rng ++ y) := by simp [fillStep]
          have h2 : fillStep (fill_board fuel) row col (true, g0, rng) v =
              (true, g0, rng) := by simp [fillStep]
          rw [h1]
          rw [h2] at hne ⊢
          exact ihv row col (true, g0, rng) hne
        · have hb' : b = false := Bool.eq_false_iff.mpr hb
          subst hb'
          by_cases hv : is_valid_placement g0 row col v
          · by_cases hr2nil :
                (fill_board fuel (setG g0 row col (some v)) rng).2.2 = []
            · exfalso
              apply hne
              have hstep : fillStep (fill_board fuel) row col
                  (false, g0, rng) v =
                  (let r2 := fill_board fuel (setG g0 row col (some v)) rng
                   if r2.1 then r2
                   else (false, setG r2.2.1 row col none, r2.2.2)) := by
                simp [fillStep, hv]
              rw [hstep]
              have hnil : ∀ g' : Grid, (fill_board fuel g' []).2.2 = [] :=
                fill_nil_rng fuel
              by_cases hfound :
                  (fill_board fuel (setG g0 row col (some v)) rng).1
              · simp only [hfound, if_true]
                exact fill_fold_nil_rng _ fuel row col _ hnil hr2nil
              · have hfound' := Bool.eq_false_iff.mpr hfound
                simp only [hfound', Bool.false_eq_true, if_false]
                exact fill_fold_nil_rng _ fuel row col _ hnil
                  (by simpa using hr2nil)
            · have hrec := ih (setG g0 row col (some v)) rng y hr2nil
              have hstep1 : fillStep (fill_board fuel) row col
                  (false, g0, rng ++ y) v =
                  (let r2 := fill_board fuel (setG g0 row col (some v))
                     (rng ++ y)
                   if r2.1 then r2
                   else (false, setG r2.2.1 row col none, r2.2.2)) := by
                simp [fillStep, hv]
              have hstep2 : fillStep (fill_board fuel) row col
                  (false, g0, rng) v =
                  (let r2 := fill_board fuel (setG g0 row col (some v)) rng
                   if r2.1 then r2
                   else (false, setG r2.2.1 row col none, r2.2.2)) := by
                simp [fillStep, hv]
              rw [hstep1, hrec]
              rw [hstep2] at hne ⊢
              by_cases hfound :
                  (fill_board fuel (setG g0 row col (some v)) rng).1
              · simp only [hfound, if_true] at hne ⊢
                have := ihv row col
                  (fill_board fuel (setG g0 row col (some v)) rng) hne
                rw [hfound] at this
                exact this
              · have hfound' := Bool.eq_false_iff.mpr hfound
                simp only [hfound', Bool.false_eq_true, if_false] at hne ⊢
                have := ihv row col
                  (false, setG (fill_board fuel (setG g0 row col (some v))
                    rng).2.1 row col none,
                   (fill_board fuel (setG g0 row col (some v)) rng).2.2) hne
                simpa using this
          · have h1 : fillStep (fill_board fuel) row col
                (false, g0, rng ++ y) v = (false, g0, rng ++ y) := by
              simp [fillStep, hv]
            have h2 : fillStep (fill_board fuel) row col (false, g0, rng) v =
                (false, g0, rng) := by
              simp [fillStep, hv]
            rw [h1]
            rw [h2] at hne ⊢
            exact ihv row col (false, g0, rng) hne
    rcases hfe : findEmpty g with _ | ⟨row, col⟩
    · have h1 : ∀ rng : Rng, fill_board (fuel + 1) g rng = (true, g, rng) := by
        intro rng
        unfold fill_board
        rw [hfe]
      rw [h1, h1]
    · have h1 : ∀ rng : Rng, fill_board (fuel + 1) g rng =
          (shuffleList (List.range GRID_SIZE) rng).1.foldl
            (fillStep (fill_board fuel) row col)
            (false, g, (shuffleList (List.range GRID_SIZE) rng).2) := by
        intro rng
        unfold fill_board
        rw [hfe]
      rw [h1] at h
      rw [h1, h1]
      by_cases hs1 : (shuffleList (List.range GRID_SIZE) s).2 = []
      · exfalso
        apply h
        exact fill_fold_nil_rng _ fuel row col _ (fill_nil_rng fuel)
          (by simpa using hs1)
      · rw [shuffleList_append _ _ _ hs1]
        exact hfold _ row col (false, g, (shuffleList (List.range GRID_SIZE)
          s).2) h

/-! Kernel-checked evaluations of the crafted generation runs. -/

set_option maxRecDepth 40000 in
theorem fill_eval :
    fill_board 82 BoardState.new.cells (fillStream ++ [0]) =
      (true, patternGrid, [0]) := by
  decide!

theorem from_board_eval :
    Solution.from_board patternBoard = some patternSolution := by
  decide!

theorem shuffle_eval :
    shuffleList allPositions (removeStream ++ [8]) = (permC1, [8]) := by
  decide!

theorem removeLoop_eval :
    removeLoop patternBoard permC1 0 75 = c1Final := by
  decide!

set_option maxRecDepth 40000 in
theorem validate_c1_eval : validate_unique_solution c1Final = false := by
  decide!

theorem filled_pattern_eval : filledCount patternGrid = 81 := by
  decide!

set_option maxHeartbeats 4000000 in
/-- The base unfolding equation of the attempt loop, established once (the
equation generation needs a large heartbeat budget). -/
theorem generateLoop_zero (s : PuzzleSettings) (b : BoardState) (g : Rng) :
    generateLoop s 0 b g = (none, b, g) := by
  rw [generateLoop]

set_option maxHeartbeats 4000000 in
/-- Unfolding one standard-tier attempt whose clue removal is rejected:
the loop retries on the removal's board and stream. -/
theorem generateLoop_succ_std_fail (s : PuzzleSettings) (n : Nat)
    (b : BoardState) (g : Rng) (pg : Grid) (rest : Rng) (sol : Solution)
    (tgt : Nat) (rest2 : Rng) (b2 : BoardState) (rest3 : Rng)
    (hexp : (s.difficulty == Difficulty.Expert &&
      s.require_unique_solution) = false)
    (hfill : fill_board 82 BoardState.new.cells g = (true, pg, rest))
    (hfb : Solution.from_board ⟨pg, fullMatrix none⟩ = some sol)
    (hgen : Rng.genRange rest s.givens_range.1 s.givens_range.2 =
      (tgt, rest2))
    (hrm : remove_numbers_for_puzzle ⟨pg, fullMatrix none⟩ tgt rest2 =
      (b2, rest3))
    (hsucc : (if s.require_unique_solution then
        validate_unique_solution b2 else true) = false) :
    generateLoop s (n + 1) b g = generateLoop s n b2 rest3 := by
  rw [generateLoop]
  simp only [BoardState.clear]
  rw [hfill]
  dsimp only
  simp only [Bool.not_true, Bool.false_eq_true, if_false]
  have hb : BoardState.mk pg BoardState.new.cell_types =
      (⟨pg, fullMatrix none⟩ : BoardState) := rfl
  rw [hb, hfb]
  dsimp only
  rw [hexp]
  simp only [Bool.false_eq_true, if_false]
  rw [hgen]
  dsimp only
  rw [hrm]
  dsimp only
  rw [hsucc]
  simp only [Bool.false_eq_true, if_false]

set_option maxHeartbeats 4000000 in
/-- Unfolding one standard-tier attempt whose clue removal is accepted:
the loop returns the snapshot solution and the removal's board. -/
theorem generateLoop_succ_std_ok (s : PuzzleSettings) (n : Nat)
    (b : BoardState) (g : Rng) (pg : Grid) (rest : Rng) (sol : Solution)
    (tgt : Nat) (rest2 : Rng) (b2 : BoardState) (rest3 : Rng)
    (hexp : (s.difficulty == Difficulty.Expert &&
      s.require_unique_solution) = false)
    (hfill : fill_board 82 BoardState.new.cells g = (true, pg, rest))
    (hfb : Solution.from_board ⟨pg, fullMatrix none⟩ = some sol)
    (hgen : Rng.genRange rest s.givens_range.1 s.givens_range.2 =
      (tgt, rest2))
    (hrm : remove_numbers_for_puzzle ⟨pg, fullMatrix none⟩ tgt rest2 =
      (b2, rest3))
    (hsucc : (if s.require_unique_solution then
        validate_unique_solution b2 else true) = true) :
    generateLoop s (n + 1) b g = (some sol, b2, rest3) := by
  rw [generateLoop]
  simp only [BoardState.clear]
  rw [hfill]
  dsimp only
  simp only [Bool.not_true, Bool.false_eq_true, if_false]
  have hb : BoardState.mk pg BoardState.new.cell_types =
      (⟨pg, fullMatrix none⟩ : BoardState) := rfl
  rw [hb, hfb]
  dsimp only
  rw [hexp]
  simp only [Bool.false_eq_true, if_false]
  rw [hgen]
  dsimp only
  rw [hrm]
  dsimp only
  rw [hsucc]
  simp only [if_true]

set_option maxHeartbeats 1000000 in
/-- One crafted attempt of the C1 run: the fill lands on the pattern grid,
the removal clears the unavoidable set, uniqueness fails, and the loop
retries with the board left as `c1Final`. -/
theorem c1_attempt_step (n : Nat) (b : BoardState) (Y : Rng) :
    generateLoop S1 (n + 1) b (attemptSeg ++ (8 :: Y)) =
      generateLoop S1 n c1Final (8 :: Y) := by
  have hshuffle : shuffleList allPositions (removeStream ++ (8 :: Y)) =
      (permC1, 8 :: Y) := by
    have h := shuffleList_append allPositions (removeStream ++ [8]) Y
      (by rw [shuffle_eval]; simp)
    rw [shuffle_eval] at h
    simpa using h
  have hfill : fill_board 82 BoardState.new.cells (attemptSeg ++ (8 :: Y)) =
      (true, patternGrid, [0] ++ (removeStream ++ (8 :: Y))) := by
    have hs : attemptSeg ++ (8 :: Y) =
        (fillStream ++ [0]) ++ (removeStream ++ (8 :: Y)) := by
      simp [attemptSeg]
    rw [hs, fill_append 82 _ _ _ (by rw [fill_eval]; simp), fill_eval]
  have hrm : remove_numbers_for_puzzle ⟨patternGrid, fullMatrix none⟩ 75
      (removeStream ++ (8 :: Y)) = (c1Final, 8 :: Y) := by
    show (if GRID_SIZE * GRID_SIZE ≤ 75 then
        (⟨patternGrid, fullMatrix none⟩, removeStream ++ (8 :: Y))
      else
        (removeLoop ⟨patternGrid, fullMatrix none⟩
          (shuffleList allPositions (removeStream ++ (8 :: Y))).1 0 75,
         (shuffleList allPositions (removeStream ++ (8 :: Y))).2)) = _
    rw [if_neg (by decide), hshuffle]
    show (removeLoop patternBoard permC1 0 75, (8 :: Y : Rng)) = _
    rw [removeLoop_eval]
  exact generateLoop_succ_std_fail S1 n b _ patternGrid _ patternSolution
    75 _ c1Final _ rfl hfill from_board_eval rfl hrm
    (by show validate_unique_solution c1Final = false
        exact validate_c1_eval)

/-- Every tail of the counterexample stream starts with the draw 8. -/
theorem c1Segs_cons : ∀ n : Nat, c1Segs n = 8 :: (c1Segs n).tail := by
  intro n
  cases n with
  | zero => rfl
  | succ n =>
    have hseg : attemptSeg = 8 :: attemptSeg.tail := by decide!
    show attemptSeg ++ c1Segs n = _
    rw [hseg]
    rfl

/-- The fifteen crafted attempts all fail, leaving the board `c1Final`. -/
theorem c1_loop : ∀ (n : Nat) (b : BoardState),
    generateLoop S1 (n + 1) b (c1Segs (n + 1)) = (none, c1Final, [8]) := by
  intro n
  induction n with
  | zero =>
    intro b
    show generateLoop S1 1 b (attemptSeg ++ c1Segs 0) = _
    rw [show c1Segs 0 = 8 :: ([] : Rng) from rfl, c1_attempt_step,
      generateLoop_zero]
  | succ n ih =>
    intro b
    show generateLoop S1 (n + 2) b (attemptSeg ++ c1Segs (n + 1)) = _
    rw [c1Segs_cons (n + 1), c1_attempt_step, ← c1Segs_cons (n + 1)]
    exact ih c1Final

/-- C1 counterexample: a failing generation run (uniqueness can never hold
with the crafted removals) that returns `None` yet does not restore the
caller's prior grid: the board is left holding the final attempt's cleared
and rebuilt state, not `B0`'s cells. -/
theorem generate_failure_changes_board :
    (B0.generate_puzzle_with_settings S1 stream1).1 = none ∧
    (B0.generate_puzzle_with_settings S1 stream1).2.1.cells ≠ B0.cells := by
  have hmain : B0.generate_puzzle_with_settings S1 stream1 =
      (none, c1Final, [8]) := by
    show generateLoop S1 (if S1.require_unique_solution then 15 else 3) B0
      stream1 = _
    show generateLoop S1 (14 + 1) B0 (c1Segs (14 + 1)) = _
    exact c1_loop 14 B0
  rw [hmain]
  refine ⟨rfl, ?_⟩
  decide!

/-- C1 amended: generation never aborts and returns an explicit option, but
on failure it does not preserve the caller's prior grid; instead every
attempt starts by clearing the board, so the whole outcome — result, final
board and stream — is independent of the prior grid state. -/
theorem generate_independent_of_prior_board :
    ∀ (b1 b2 : BoardState) (s : PuzzleSettings) (g : Rng),
    b1.generate_puzzle_with_settings s g =
      b2.generate_puzzle_with_settings s g := by
  intro b1 b2 s g
  have key : ∀ (n : Nat), generateLoop s (n + 1) b1 g =
      generateLoop s (n + 1) b2 g := by
    intro n
    rw [generateLoop, generateLoop]
    simp only [BoardState.clear]
  unfold BoardState.generate_puzzle_with_settings
  cases hr : s.require_unique_solution with
  | false => exact key 2
  | true => exact key 14

/-! Claim C2: accepted boards and the givens range. -/

/-- The single (successful) attempt of the C2 counterexample run. -/
theorem c2_eval : BoardState.new.generate_puzzle_with_settings S2 stream2 =
    (some patternSolution, patternBoard, []) := by
  show generateLoop S2 (if S2.require_unique_solution then 15 else 3)
    BoardState.new stream2 = _
  show generateLoop S2 (2 + 1) BoardState.new stream2 = _
  exact generateLoop_succ_std_ok S2 2 BoardState.new stream2 patternGrid
    [0] patternSolution 82 [] patternBoard [] rfl fill_eval
    from_board_eval rfl rfl rfl

/-- C2 counterexample: with settings whose givens range is (82,82) — above
the 81 cells — generation accepts a board (removal keeps everything), yet
its filled-cell count 81 lies outside the range, so the claim's range
guarantee fails for these settings. -/
theorem generate_out_of_range_counterexample :
    (BoardState.new.generate_puzzle_with_settings S2 stream2).1.isSome =
      true ∧
    filledCount
      (BoardState.new.generate_puzzle_with_settings S2 stream2).2.1.cells =
      81 ∧
    ¬ (S2.givens_range.1 ≤ 81 ∧ 81 ≤ S2.givens_range.2) := by
  rw [c2_eval]
  refine ⟨rfl, ?_, by decide⟩
  show filledCount patternGrid = 81
  exact filled_pattern_eval

/-- The successful run backing the C2 witness (range (81,81)). -/
theorem c2_witness_eval :
    BoardState.new.generate_puzzle_with_settings S3 stream2 =
      (some patternSolution, patternBoard, []) := by
  show generateLoop S3 (if S3.require_unique_solution then 15 else 3)
    BoardState.new stream2 = _
  show generateLoop S3 (2 + 1) BoardState.new stream2 = _
  exact generateLoop_succ_std_ok S3 2 BoardState.new stream2 patternGrid
    [0] patternSolution 81 [] patternBoard [] rfl fill_eval
    from_board_eval rfl rfl rfl


/-! Counting machinery shared by the generation claims: `filledCount` as a
count over the 81 positions, and how a single cell update moves it. -/

theorem list_eq_range_map (d : α) : ∀ (l : List α),
    (List.range l.length).map (fun i => l.getD i d) = l
  | [] => rfl
  | a :: t => by
    rw [List.length_cons, List.range_succ_eq_map, List.map_cons, List.map_map]
    refine congrArg (a :: ·) ?_
    have : ((fun i => (a :: t).getD i d) ∘ Nat.succ) = fun i => t.getD i d := by
      funext i
      simp
    rw [this]
    exact list_eq_range_map d t

theorem countP_eq_range (l : List α) (p : α → Bool) (d : α) :
    l.countP p = (List.range l.length).countP fun i => p (l.getD i d) := by
  conv_lhs => rw [← list_eq_range_map d l]
  rw [List.countP_map]
  rfl

theorem countP_flatten (p : α → Bool) : ∀ (L : List (List α)),
    L.flatten.countP p = (L.map fun l => l.countP p).sum
  | [] => rfl
  | l :: L => by
    rw [List.flatten_cons, List.countP_append, List.map_cons, List.sum_cons,
      countP_flatten p L]

theorem countP_flatMap (p : β → Bool) (f : α → List β) : ∀ (l : List α),
    (l.flatMap f).countP p = (l.map fun a => (f a).countP p).sum
  | [] => rfl
  | a :: t => by
    rw [List.flatMap_cons, List.countP_append, List.map_cons, List.sum_cons,
      countP_flatMap p f t]

/-- The flatten/filter count of the source, `filledCount`, as a positional
count over the 81 coordinates, for a well-formed grid. -/
theorem filledCount_eq_countP {g : Grid} (h : WFm g) :
    filledCount g = allPositions.countP fun p => (getG g p.1 p.2).isSome := by
  unfold filledCount allPositions GRID_SIZE
  rw [← List.countP_eq_length_filter, countP_flatten, countP_flatMap]
  have hg : (List.range 9).map (fun i => g.getD i []) = g := by
    have h0 := list_eq_range_map ([] : List (Option Nat)) g
    rwa [h.1] at h0
  conv_lhs => rw [← hg, List.map_map]
  refine congrArg List.sum (List.map_congr_left fun r hr => ?_)
  rw [Function.comp_apply, List.countP_map]
  have hlen : (g.getD r []).length = 9 :=
    row_length_of_WFm h (List.mem_range.mp hr)
  rw [countP_eq_range (g.getD r []) _ none, hlen]
  rfl

theorem mem_allPositions {p : Nat × Nat} :
    p ∈ allPositions ↔ p.1 < 9 ∧ p.2 < 9 := by
  unfold allPositions GRID_SIZE
  simp only [List.mem_flatMap, List.mem_map, List.mem_range]
  constructor
  · rintro ⟨row, hrow, col, hcol, rfl⟩
    exact ⟨hrow, hcol⟩
  · rintro ⟨h1, h2⟩
    exact ⟨p.1, h1, p.2, h2, rfl⟩

theorem allPositions_nodup : allPositions.Nodup := by decide

theorem allPositions_length : allPositions.length = 81 := by decide

/-- A count drops by one when the predicate flips from true to false at a
single member of a duplicate-free list. -/
theorem countP_update {l : List α} {x : α} (hl : l.Nodup) (hx : x ∈ l)
    {p q : α → Bool} (hpq : ∀ y ∈ l, y ≠ x → p y = q y)
    (hp : p x = true) (hq : q x = false) :
    l.countP q + 1 = l.countP p := by
  obtain ⟨l1, l2, rfl⟩ := List.append_of_mem hx
  rw [List.nodup_append] at hl
  have hx1 : x ∉ l1 := fun hmem => (hl.2.2 hmem) (List.mem_cons_self x l2)
  have hx2 : x ∉ l2 := by
    have := hl.2.1
    rw [List.nodup_cons] at this
    exact this.1
  have e1 : l1.countP p = l1.countP q :=
    List.countP_congr fun y hy => by
      rw [hpq y (List.mem_append_left _ hy) (fun hyx => hx1 (hyx ▸ hy))]
  have e2 : l2.countP p = l2.countP q :=
    List.countP_congr fun y hy => by
      rw [hpq y (List.mem_append_right _ (List.mem_cons_of_mem _ hy))
        (fun hyx => hx2 (hyx ▸ hy))]
  rw [List.countP_append, List.countP_append, List.countP_cons,
    List.countP_cons, hp, hq, e1, e2]
  simp only [eq_self_iff_true, if_true, Bool.false_eq_true, if_false]
  omega

/-- Setting any cell keeps the matrix well-formed. -/
theorem WFm_matrix_set {m : List (List α)} (h : WFm m) (r c : Nat) (v : α) :
    WFm (m.set r ((m.getD r []).set c v)) := by
  rcases Nat.lt_or_ge r m.length with hr | hr
  · refine ⟨by rw [List.length_set]; exact h.1, fun row hrow => ?_⟩
    rcases List.mem_or_eq_of_mem_set hrow with hmem | rfl
    · exact h.2 row hmem
    · rw [List.length_set]
      have hmem : m.getD r [] ∈ m := by
        simp only [List.getD_eq_getElem?_getD, List.getElem?_eq_getElem hr]
        exact List.getElem_mem hr
      exact h.2 _ hmem
  · rw [List.set_eq_of_length_le hr]
    exact h

theorem WFm_setG {g : Grid} (h : WFm g) (r c : Nat) (v : Option Nat) :
    WFm (setG g r c v) :=
  WFm_matrix_set h r c v

theorem WFm_setT {t : TypeGrid} (h : WFm t) (r c : Nat) (v : Option CellType) :
    WFm (setT t r c v) :=
  WFm_matrix_set h r c v

/-- Clearing a filled in-range cell lowers `filledCount` by exactly one. -/
theorem filledCount_setG_none {g : Grid} (h : WFm g) {r c : Nat}
    (hr : r < 9) (hc : c < 9) (hsome : (getG g r c).isSome = true) :
    filledCount (setG g r c none) + 1 = filledCount g := by
  rw [filledCount_eq_countP h, filledCount_eq_countP (WFm_setG h r c none)]
  have hx : ((r, c) : Nat × Nat) ∈ allPositions := mem_allPositions.mpr ⟨hr, hc⟩
  refine countP_update allPositions_nodup hx (fun y hy hne => ?_) hsome ?_
  · have : y.1 ≠ r ∨ y.2 ≠ c := by
      by_contra hcon
      push_neg at hcon
      exact hne (Prod.ext hcon.1 hcon.2)
    rw [getG_setG_ne this]
  · rw [getG_setG_self h hr hc]
    rfl

/-! The Fisher-Yates shuffle permutes its input. -/

theorem cons_getElem_set_perm : ∀ (t : List α) (k : Nat), k < t.length →
    ∀ (x : α), (t.getD k x :: t.set k x).Perm (x :: t)
  | a :: u, 0, _, x => List.Perm.swap x a u
  | a :: u, k + 1, hk, x => by
    rw [List.getD_cons_succ, List.set_cons_succ]
    refine (List.Perm.swap a (u.getD k x) (u.set k x)).trans ?_
    refine (List.Perm.cons a
      (cons_getElem_set_perm u k (by simpa using hk) x)).trans ?_
    exact List.Perm.swap x a u

theorem set_set_lt_perm : ∀ (l : List α) (i j : Nat) (a b : α), i < j →
    l[i]? = some a → l[j]? = some b → ((l.set i b).set j a).Perm l
  | x :: t, 0, j + 1, a, b, _, hi, hj => by
    rw [List.getElem?_cons_zero, Option.some.injEq] at hi
    rw [List.getElem?_cons_succ] at hj
    rw [List.set_cons_zero, List.set_cons_succ]
    have hjlen : j < t.length := (List.getElem?_eq_some_iff.mp hj).1
    have hb : t.getD j x = b := by
      rw [List.getD_eq_getElem?_getD, hj]
      rfl
    rw [← hi, ← hb]
    exact cons_getElem_set_perm t j hjlen x
  | x :: t, i + 1, j + 1, a, b, hij, hi, hj => by
    rw [List.getElem?_cons_succ] at hi hj
    rw [List.set_cons_succ, List.set_cons_succ]
    exact List.Perm.cons x
      (set_set_lt_perm t i j a b (by omega) hi hj)

theorem listSwap_perm (l : List α) (i j : Nat) : (listSwap l i j).Perm l := by
  unfold listSwap
  cases hi : l.get? i with
  | none => exact List.Perm.refl l
  | some a =>
    cases hj : l.get? j with
    | none => exact List.Perm.refl l
    | some b =>
      rw [List.get?_eq_getElem?] at hi hj
      dsimp only
      rcases Nat.lt_trichotomy i j with hij | rfl | hij
      · exact set_set_lt_perm l i j a b hij hi hj
      · rw [hi, Option.some.injEq] at hj
        subst hj
        rw [List.set_set, set_getElem?_self hi]
      · rw [List.set_comm _ _ _ (Nat.ne_of_gt hij)]
        exact set_set_lt_perm l j i b a hij hj hi

theorem shuffleAux_perm : ∀ (i : Nat) (l : List α) (g : Rng),
    ((shuffleAux l g i).1).Perm l
  | 0, l, g => List.Perm.refl l
  | i + 1, l, g => by
    rw [shuffleAux]
    exact (shuffleAux_perm i _ _).trans (listSwap_perm l (i + 1) _)

theorem shuffleList_perm (l : List α) (g : Rng) :
    ((shuffleList l g).1).Perm l :=
  shuffleAux_perm _ l g

/-! Double writes collapse; helper facts about complete boards. -/

theorem matrix_set_set {m : List (List α)} (r c : Nat) (v w : α) :
    ((m.set r ((m.getD r []).set c v)).set r
      (((m.set r ((m.getD r []).set c v)).getD r []).set c w)) =
      m.set r ((m.getD r []).set c w) := by
  rcases Nat.lt_or_ge r m.length with hr | hr
  · have hrow : (m.set r ((m.getD r []).set c v)).getD r [] =
        (m.getD r []).set c v := by
      simp only [List.getD_eq_getElem?_getD,
        List.getElem?_set_self (by simpa using hr), Option.getD_some]
    rw [hrow, List.set_set, List.set_set]
  · rw [List.set_eq_of_length_le hr]

theorem setG_setG (g : Grid) (r c : Nat) (v w : Option Nat) :
    setG (setG g r c v) r c w = setG g r c w :=
  matrix_set_set r c v w

theorem markAllGiven_cells (b : BoardState) : (markAllGiven b).cells = b.cells :=
  rfl

theorem genRange_bounds (g : Rng) (lo hi : Nat) (h : lo ≤ hi) :
    lo ≤ (Rng.genRange g lo hi).1 ∧ (Rng.genRange g lo hi).1 ≤ hi := by
  unfold Rng.genRange Rng.next
  dsimp only
  have : g.headD 0 % (hi + 1 - lo) < hi + 1 - lo :=
    Nat.mod_lt _ (by omega)
  omega

theorem is_complete_full {g : Grid} (h : is_complete g = true) :
    ∀ r c, r < 9 → c < 9 → (getG g r c).isSome = true := by
  unfold is_complete GRID_SIZE at h
  rw [Bool.and_eq_true] at h
  have h1 := h.1
  rw [List.all_eq_true] at h1
  intro r c hr hc
  have h2 := h1 r (List.mem_range.mpr hr)
  rw [List.all_eq_true] at h2
  exact h2 c (List.mem_range.mpr hc)

theorem from_board_complete {b : BoardState} {sol : Solution}
    (h : Solution.from_board b = some sol) : is_complete b.cells = true := by
  unfold Solution.from_board at h
  by_cases hc : is_complete b.cells = true
  · exact hc
  · rw [if_neg hc] at h
    exact absurd h (by simp)

theorem findEmpty_none_of_full {g : Grid}
    (hfull : ∀ r c, r < 9 → c < 9 → (getG g r c).isSome = true) :
    findEmpty g = none := by
  unfold findEmpty GRID_SIZE
  have hnone : ((List.range (9 * 9)).find? fun k =>
      (getG g (k / 9) (k % 9)).isNone) = none := by
    rw [List.find?_eq_none]
    intro k hk hcon
    have hk81 : k < 81 := by simpa using List.mem_range.mp hk
    rw [Option.isNone_iff_eq_none] at hcon
    have hs := hfull (k / 9) (k % 9) (by omega) (by omega)
    rw [hcon] at hs
    exact absurd hs (by simp)
  rw [hnone]
  rfl

theorem solve82_full {g : Grid} (count maxs : Nat)
    (hfe : findEmpty g = none) (hlt : count < maxs) :
    solve_with_counter 82 g count maxs = (false, g, count + 1) := by
  show solve_with_counter (81 + 1) g count maxs = _
  rw [solve_with_counter, if_neg (by omega), hfe]

theorem validate_of_complete {b : BoardState} (h : is_complete b.cells = true) :
    validate_unique_solution b = true := by
  unfold validate_unique_solution
  rw [solve82_full 0 2 (findEmpty_none_of_full (is_complete_full h)) (by omega)]
  rfl

/-! Well-formedness is preserved through the backtracking fill. -/

theorem foldl_fillStep_WFm (rec : Grid → Rng → Bool × Grid × Rng)
    (hrec : ∀ g rng, WFm g → WFm (rec g rng).2.1) (row col : Nat) :
    ∀ (nums : List Nat) (r : Bool × Grid × Rng), WFm r.2.1 →
      WFm ((nums.foldl (fillStep rec row col) r)).2.1
  | [], _, h => h
  | n :: ns, r, h => by
    rw [List.foldl_cons]
    refine foldl_fillStep_WFm rec hrec row col ns _ ?_
    unfold fillStep
    split
    · exact h
    · split
      · dsimp only
        split
        · exact hrec _ _ (WFm_setG h row col _)
        · exact WFm_setG (hrec _ _ (WFm_setG h row col _)) row col none
      · exact h

theorem fill_WFm : ∀ (fuel : Nat) (g : Grid) (rng : Rng), WFm g →
    WFm (fill_board fuel g rng).2.1
  | 0, _, _, h => h
  | fuel + 1, g, rng, h => by
    rw [fill_board]
    cases hfe : findEmpty g with
    | none => exact h
    | some rc =>
      obtain ⟨row, col⟩ := rc
      dsimp only
      exact foldl_fillStep_WFm _ (fun g' rng' h' => fill_WFm fuel g' rng' h')
        row col _ _ h

/-! The givens-range and uniqueness guarantees of accepted generation runs. -/

theorem filledCount_of_full {g : Grid} (h : WFm g)
    (hfull : ∀ r c, r < 9 → c < 9 → (getG g r c).isSome = true) :
    filledCount g = 81 := by
  rw [filledCount_eq_countP h]
  have hall : allPositions.countP (fun p => (getG g p.1 p.2).isSome) =
      allPositions.length := by
    rw [List.countP_eq_length]
    intro p hp
    obtain ⟨h1, h2⟩ := mem_allPositions.mp hp
    exact hfull p.1 p.2 h1 h2
  rw [hall, allPositions_length]

/-- The tentative-removal loop of the expert generator preserves uniqueness:
a removal is kept only when `validate_unique_solution` still holds, and a
failed removal is written back in place. -/
theorem expertLoop_valid : ∀ (cands : List (Nat × Nat)) (b : BoardState)
    (made tgt : Nat), validate_unique_solution b = true →
    validate_unique_solution (expertLoop b cands made tgt) = true
  | [], _, _, _, hv => hv
  | (row, col) :: rest, b, made, tgt, hv => by
    rw [expertLoop]
    split
    · exact hv
    · dsimp only
      split
      · rename_i hval
        exact expertLoop_valid rest _ _ _ hval
      · have hcells : setG (setG b.cells row col none) row col
            (getG b.cells row col) = b.cells := by
          rw [setG_setG, setG_cancel rfl]
        refine expertLoop_valid rest _ _ _ ?_
        unfold validate_unique_solution at hv ⊢
        dsimp only
        rw [hcells]
        exact hv

/-- What a `true` flag from generate_expert_unique_puzzle guarantees: the
final givens count is in range, and the returned board still has a unique
solution (assuming the input had one). -/
theorem expert_post {b : BoardState} {s : PuzzleSettings} {g : Rng}
    (hv : validate_unique_solution b = true)
    (he : (generate_expert_unique_puzzle b s g).1 = true) :
    (s.givens_range.1 ≤
        filledCount (generate_expert_unique_puzzle b s g).2.1.cells ∧
      filledCount (generate_expert_unique_puzzle b s g).2.1.cells ≤
        s.givens_range.2) ∧
    validate_unique_solution (generate_expert_unique_puzzle b s g).2.1 =
      true := by
  unfold generate_expert_unique_puzzle at he ⊢
  dsimp only at he ⊢
  simp only [Bool.and_eq_true, decide_eq_true_eq] at he
  refine ⟨he, ?_⟩
  have hval := expertLoop_valid (shuffleList allPositions g).1 b 0
    (GRID_SIZE * GRID_SIZE - (Rng.genRange (shuffleList allPositions g).2
      s.givens_range.1 s.givens_range.2).1) hv
  unfold validate_unique_solution at hval ⊢
  rw [markAllGiven_cells]
  exact hval

/-- The enumerate loop of removal: each processed position either only flips
a cell type (index below the givens target) or clears one still-filled cell,
so the filled count drops by exactly the number of cleared positions. -/
theorem removeLoop_count : ∀ (l : List (Nat × Nat)) (b : BoardState)
    (i0 gv : Nat), l.Nodup →
    (∀ p ∈ l, p.1 < 9 ∧ p.2 < 9 ∧ (getG b.cells p.1 p.2).isSome = true) →
    WFm b.cells →
    filledCount (removeLoop b l i0 gv).cells + (l.length - (gv - i0)) =
      filledCount b.cells
  | [], b, i0, gv, _, _, _ => by simp [removeLoop]
  | (row, col) :: rest, b, i0, gv, hnd, hmem, hw => by
    rw [removeLoop]
    rw [List.nodup_cons] at hnd
    rw [List.length_cons]
    split
    · rename_i hlt
      dsimp only
      have ih := removeLoop_count rest
        { b with cell_types := setT b.cell_types row col (some CellType.Given) }
        (i0 + 1) gv hnd.2 (fun p hp => hmem p (List.mem_cons_of_mem _ hp)) hw
      dsimp only at ih
      omega
    · rename_i hge
      dsimp only
      obtain ⟨hr, hc, hsome⟩ := hmem (row, col) (List.mem_cons_self _ _)
      dsimp only at hr hc hsome
      have hdec := filledCount_setG_none hw hr hc hsome
      have hrest : ∀ p ∈ rest, p.1 < 9 ∧ p.2 < 9 ∧
          (getG (setG b.cells row col none) p.1 p.2).isSome = true := by
        intro p hp
        obtain ⟨h1, h2, h3⟩ := hmem p (List.mem_cons_of_mem _ hp)
        refine ⟨h1, h2, ?_⟩
        have hne : p ≠ (row, col) := fun he => hnd.1 (he ▸ hp)
        have hor : p.1 ≠ row ∨ p.2 ≠ col := by
          by_contra hcon
          push_neg at hcon
          exact hne (Prod.ext hcon.1 hcon.2)
        rw [getG_setG_ne hor]
        exact h3
      have ih := removeLoop_count rest
        { cells := setG b.cells row col none,
          cell_types := setT b.cell_types row col none }
        (i0 + 1) gv hnd.2 hrest (WFm_setG hw row col none)
      dsimp only at ih
      omega

/-- remove_numbers_for_puzzle leaves exactly `givens` filled cells when the
board is complete and the target is at most 81. -/
theorem remove_count (b : BoardState) (hw : WFm b.cells)
    (hfull : ∀ r c, r < 9 → c < 9 → (getG b.cells r c).isSome = true)
    (gv : Nat) (hgv : gv ≤ 81) (g : Rng) :
    filledCount (remove_numbers_for_puzzle b gv g).1.cells = gv := by
  unfold remove_numbers_for_puzzle GRID_SIZE
  split
  · rename_i h81
    dsimp only
    rw [filledCount_of_full hw hfull]
    omega
  · rename_i h81
    dsimp only
    have hperm := shuffleList_perm allPositions g
    have hnd : (shuffleList allPositions g).1.Nodup :=
      hperm.nodup_iff.mpr allPositions_nodup
    have hlen : (shuffleList allPositions g).1.length = 81 := by
      rw [hperm.length_eq, allPositions_length]
    have hmem : ∀ p ∈ (shuffleList allPositions g).1,
        p.1 < 9 ∧ p.2 < 9 ∧ (getG b.cells p.1 p.2).isSome = true := by
      intro p hp
      obtain ⟨h1, h2⟩ := mem_allPositions.mp (hperm.mem_iff.mp hp)
      exact ⟨h1, h2, hfull p.1 p.2 h1 h2⟩
    have hcnt := removeLoop_count (shuffleList allPositions g).1 b 0 gv
      hnd hmem hw
    rw [hlen, filledCount_of_full hw hfull] at hcnt
    omega

/-- The standard (non-expert) acceptance path lands in range. -/
theorem std_accept_count (b1 : BoardState) (rng : Rng) (lo hi : Nat)
    (hle : lo ≤ hi) (h81 : hi ≤ 81) (hw : WFm b1.cells)
    (hcomp : is_complete b1.cells = true) :
    lo ≤ filledCount (remove_numbers_for_puzzle b1
        (Rng.genRange rng lo hi).1 (Rng.genRange rng lo hi).2).1.cells ∧
    filledCount (remove_numbers_for_puzzle b1
        (Rng.genRange rng lo hi).1 (Rng.genRange rng lo hi).2).1.cells ≤
      hi := by
  have htg := genRange_bounds rng lo hi hle
  have hcount := remove_count b1 hw (is_complete_full hcomp)
    (Rng.genRange rng lo hi).1 (le_trans htg.2 h81) (Rng.genRange rng lo hi).2
  rw [hcount]
  exact htg

set_option maxHeartbeats 4000000 in
/-- Every accepted attempt of the generation loop satisfies the givens-range
bound and, when required, uniqueness. -/
theorem generateLoop_range (s : PuzzleSettings)
    (hle : s.givens_range.1 ≤ s.givens_range.2)
    (h81 : s.givens_range.2 ≤ 81) : ∀ (n : Nat) (b : BoardState) (g : Rng),
    (generateLoop s n b g).1.isSome = true →
    (s.givens_range.1 ≤ filledCount (generateLoop s n b g).2.1.cells ∧
      filledCount (generateLoop s n b g).2.1.cells ≤ s.givens_range.2) ∧
    (s.require_unique_solution = true →
      validate_unique_solution (generateLoop s n b g).2.1 = true)
  | 0, b, g => by
    rw [generateLoop]
    intro h
    exact absurd h (by simp)
  | n + 1, b, g => by
    rw [generateLoop]
    simp only [BoardState.clear]
    have hwF : WFm (fill_board 82 BoardState.new.cells g).2.1 :=
      fill_WFm 82 BoardState.new.cells g (by decide)
    generalize hF : fill_board 82 BoardState.new.cells g = F
    rw [hF] at hwF
    split
    · exact generateLoop_range s hle h81 n _ _
    · split
      · intro h
        exact absurd h (by simp)
      · rename_i sol hfb
        split
        · split
          · rename_i he1
            intro _
            have hv := validate_of_complete (from_board_complete hfb)
            have hp := expert_post hv he1
            exact ⟨hp.1, fun _ => hp.2⟩
          · exact generateLoop_range s hle h81 n _ _
        · split
          · rename_i hreq
            split
            · rename_i hval
              intro _
              exact ⟨std_accept_count _ _ _ _ hle h81 hwF
                (from_board_complete hfb), fun _ => hval⟩
            · exact generateLoop_range s hle h81 n _ _
          · rename_i hreq
            split
            · intro _
              exact ⟨std_accept_count _ _ _ _ hle h81 hwF
                (from_board_complete hfb), fun hreq2 => absurd hreq2 hreq⟩
            · rename_i hcon
              exact absurd rfl hcon

/-- Claim C2 (amended): whenever generate_puzzle_with_settings returns a
solution, the filled-cell count of the returned board lies within the
settings' givens range — provided that range is ordered and within the 81
cells of the grid — and uniqueness holds when required. -/
theorem generate_givens_in_range (b : BoardState) (s : PuzzleSettings)
    (g : Rng) (hle : s.givens_range.1 ≤ s.givens_range.2)
    (h81 : s.givens_range.2 ≤ 81)
    (hsome : (b.generate_puzzle_with_settings s g).1.isSome = true) :
    (s.givens_range.1 ≤
        filledCount (b.generate_puzzle_with_settings s g).2.1.cells ∧
      filledCount (b.generate_puzzle_with_settings s g).2.1.cells ≤
        s.givens_range.2) ∧
    (s.require_unique_solution = true →
      validate_unique_solution (b.generate_puzzle_with_settings s g).2.1 =
        true) := by
  unfold BoardState.generate_puzzle_with_settings at hsome ⊢
  exact generateLoop_range s hle h81 _ b g hsome


/-- Concrete instance of the C2 theorem: the crafted run with settings S3
(range (81,81), no uniqueness requirement) is accepted with 81 givens. -/
theorem generate_givens_in_range_witness :
    (S3.givens_range.1 ≤ S3.givens_range.2 ∧ S3.givens_range.2 ≤ 81 ∧
      (BoardState.new.generate_puzzle_with_settings S3 stream2).1.isSome =
        true) ∧
    ((S3.givens_range.1 ≤ filledCount
        (BoardState.new.generate_puzzle_with_settings S3 stream2).2.1.cells ∧
      filledCount
        (BoardState.new.generate_puzzle_with_settings S3 stream2).2.1.cells ≤
        S3.givens_range.2) ∧
    (S3.require_unique_solution = true →
      validate_unique_solution
        (BoardState.new.generate_puzzle_with_settings S3 stream2).2.1 =
        true)) := by
  have hsome : (BoardState.new.generate_puzzle_with_settings
      S3 stream2).1.isSome = true := by
    rw [c2_witness_eval]
    rfl
  exact ⟨⟨by decide, by decide, hsome⟩, generate_givens_in_range
    BoardState.new S3 stream2 (by decide) (by decide) hsome⟩


/-! Solver-correctness development for the uniqueness validator. -/

theorem emptiesIn_setG_some {g : Grid} (h : WFm g) {r c : Nat}
    (hr : r < 9) (hc : c < 9) (hnone : getG g r c = none) (v : Nat) :
    emptiesIn (setG g r c (some v)) + 1 = emptiesIn g := by
  unfold emptiesIn
  have hx : ((r, c) : Nat × Nat) ∈ allPositions := mem_allPositions.mpr ⟨hr, hc⟩
  refine countP_update allPositions_nodup hx (fun y hy hne => ?_) ?_ ?_
  · have hor : y.1 ≠ r ∨ y.2 ≠ c := pair_ne_split hne
    rw [getG_setG_ne hor]
  · rw [hnone]
    rfl
  · rw [getG_setG_self h hr hc]
    rfl

theorem emptiesIn_le (g : Grid) : emptiesIn g ≤ 81 := by
  unfold emptiesIn
  rw [← allPositions_length]
  exact List.countP_le_length _

theorem findEmpty_some {g : Grid} {r c : Nat}
    (h : findEmpty g = some (r, c)) :
    r < 9 ∧ c < 9 ∧ getG g r c = none := by
  unfold findEmpty GRID_SIZE at h
  cases hfind : (List.range (9 * 9)).find? fun k =>
      (getG g (k / 9) (k % 9)).isNone with
  | none =>
    rw [hfind] at h
    exact absurd h (by simp)
  | some k =>
    rw [hfind] at h
    have hk81 : k < 81 := by
      simpa using List.mem_range.mp (List.mem_of_find?_eq_some hfind)
    have hpred := List.find?_some hfind
    rw [Option.isNone_iff_eq_none] at hpred
    simp only [Option.map_some', Option.some.injEq, Prod.mk.injEq] at h
    obtain ⟨h1, h2⟩ := h
    subst h1
    subst h2
    exact ⟨by omega, by omega, hpred⟩

theorem findEmpty_none {g : Grid} (h : findEmpty g = none) :
    ∀ r c, r < 9 → c < 9 → (getG g r c).isSome = true := by
  unfold findEmpty GRID_SIZE at h
  intro r c hr hc
  cases hfind : (List.range (9 * 9)).find? fun k =>
      (getG g (k / 9) (k % 9)).isNone with
  | some k =>
    rw [hfind] at h
    exact absurd h (by simp)
  | none =>
    have hnone := List.find?_eq_none.mp hfind (r * 9 + c)
      (List.mem_range.mpr (by omega))
    have hdiv : (r * 9 + c) / 9 = r := by omega
    have hmod : (r * 9 + c) % 9 = c := by omega
    rw [hdiv, hmod] at hnone
    cases ho : getG g r c with
    | none =>
      rw [ho] at hnone
      simp at hnone
    | some w => rfl

theorem sameUnit_symm {r c row col : Nat} (h : sameUnit r c row col) :
    sameUnit row col r c := by
  unfold sameUnit at h ⊢
  omega

theorem matrix_get_full {a d : α} {r c : Nat} (hr : r < 9) (hc : c < 9) :
    ((fullMatrix a).getD r []).getD c d = a := by
  unfold fullMatrix GRID_SIZE
  have hrow : (List.replicate 9 (List.replicate 9 a)).getD r [] =
      List.replicate 9 a := by
    rw [List.getD_eq_getElem?_getD, List.getElem?_replicate, if_pos hr,
      Option.getD_some]
  rw [hrow, List.getD_eq_getElem?_getD, List.getElem?_replicate, if_pos hc,
    Option.getD_some]

/-- Two well-formed grids agreeing on every in-range cell are equal. -/
theorem grid_ext {g g' : Grid} (hw : WFm g) (hw' : WFm g')
    (h : ∀ r, r < 9 → ∀ c, c < 9 → getG g r c = getG g' r c) : g = g' := by
  have e1 := list_eq_range_map ([] : List (Option Nat)) g
  have e2 := list_eq_range_map ([] : List (Option Nat)) g'
  rw [hw.1] at e1
  rw [hw'.1] at e2
  rw [← e1, ← e2]
  refine List.map_congr_left fun r hr => ?_
  have hr9 := List.mem_range.mp hr
  have r1 := list_eq_range_map (none : Option Nat) (g.getD r [])
  have r2 := list_eq_range_map (none : Option Nat) (g'.getD r [])
  rw [row_length_of_WFm hw hr9] at r1
  rw [row_length_of_WFm hw' hr9] at r2
  rw [← r1, ← r2]
  refine List.map_congr_left fun c hc => ?_
  exact h r hr9 c (List.mem_range.mp hc)

/-- Placing a valid value keeps the grid conflict-free. -/
theorem noConflicts_setG {g : Grid} (hw : WFm g) {row col v : Nat}
    (hrow : row < 9) (hcol : col < 9)
    (hnc : NoConflicts g)
    (hvalid : is_valid_placement g row col v = true) :
    NoConflicts (setG g row col (some v)) := by
  intro r hr c hc
  by_cases hrc : ((r, c) : Nat × Nat) = (row, col)
  · obtain ⟨h1, h2⟩ := Prod.mk.injEq .. ▸ hrc
    subst h1
    subst h2
    rw [getG_setG_self hw hr hc]
    rw [Option.all_some]
    rw [valid_iff hr hc]
    intro r' c' hr' hc' hne hsu
    rw [getG_setG_ne (pair_ne_split hne)]
    exact (valid_iff hr hc).mp hvalid r' c' hr' hc' hne hsu
  · rw [getG_setG_ne (pair_ne_split hrc)]
    cases hval : getG g r c with
    | none => rfl
    | some w =>
      have hold := hnc r hr c hc
      rw [hval, Option.all_some] at hold
      rw [Option.all_some]
      rw [valid_iff hr hc]
      intro r' c' hr' hc' hne' hsu'
      by_cases hx : ((r', c') : Nat × Nat) = (row, col)
      · obtain ⟨h1, h2⟩ := Prod.mk.injEq .. ▸ hx
        subst h1
        subst h2
        rw [getG_setG_self hw hrow hcol]
        intro hcon
        rw [Option.some.injEq] at hcon
        subst hcon
        exact (valid_iff hrow hcol).mp hvalid r c hr hc
          (fun he => hrc (by rw [he])) (sameUnit_symm hsu') hval
      · rw [getG_setG_ne (pair_ne_split hx)]
        exact (valid_iff hr hc).mp hold r' c' hr' hc' hne' hsu'

theorem valuesOk_setG {g : Grid} (hw : WFm g) {row col v : Nat}
    (hrow : row < 9) (hcol : col < 9) (hv9 : v < 9) (hok : ValuesOk g) :
    ValuesOk (setG g row col (some v)) := by
  intro r hr c hc
  by_cases hrc : ((r, c) : Nat × Nat) = (row, col)
  · obtain ⟨h1, h2⟩ := Prod.mk.injEq .. ▸ hrc
    subst h1
    subst h2
    rw [getG_setG_self hw hr hc]
    exact hv9
  · rw [getG_setG_ne (pair_ne_split hrc)]
    exact hok r hr c hc

theorem extendsG_step {g C : Grid} {row col v : Nat}
    (hrow : row < 9) (hcol : col < 9) (hnone : getG g row col = none)
    (hext : ExtendsG (setG g row col (some v)) C) : ExtendsG g C := by
  intro r hr c hc hsome
  have hor : r ≠ row ∨ c ≠ col := by
    by_contra hcon
    push_neg at hcon
    obtain ⟨rfl, rfl⟩ := hcon
    rw [hnone] at hsome
    simp at hsome
  have hres := hext r hr c hc (by rw [getG_setG_ne hor]; exact hsome)
  rw [getG_setG_ne hor] at hres
  exact hres

theorem enumSols_extends : ∀ (fuel : Nat) {g C : Grid}, WFm g →
    C ∈ enumSols fuel g → ExtendsG g C
  | 0, _, C, _, h => absurd h (List.not_mem_nil C)
  | fuel + 1, g, C, hw, h => by
    rw [enumSols] at h
    split at h
    · rename_i hfe
      rw [List.mem_singleton] at h
      subst h
      intro r hr c hc _
      rfl
    · rename_i row col hfe
      obtain ⟨hrow, hcol, hnone⟩ := findEmpty_some hfe
      rw [List.mem_flatMap] at h
      obtain ⟨v, hv, hmem⟩ := h
      by_cases hval : is_valid_placement g row col v = true
      · rw [if_pos hval] at hmem
        exact extendsG_step hrow hcol hnone
          (enumSols_extends fuel (WFm_setG hw row col (some v)) hmem)
      · rw [if_neg hval] at hmem
        exact absurd hmem (List.not_mem_nil C)

/-- The enumeration lists exactly the completions (on a well-formed,
in-range, conflict-free grid, with enough fuel). -/
theorem mem_enumSols : ∀ (fuel : Nat) {g C : Grid}, WFm g → ValuesOk g →
    NoConflicts g → emptiesIn g < fuel →
    (C ∈ enumSols fuel g ↔ IsCompletionOf g C)
  | 0, _, _, _, _, _, hE => absurd hE (by omega)
  | fuel + 1, g, C, hw, hok, hnc, hE => by
    rw [enumSols]
    split
    · rename_i hfe
      rw [List.mem_singleton]
      constructor
      · rintro rfl
        exact ⟨hw, fun r hr c hc => findEmpty_none hfe r c hr hc, hok, hnc,
          fun r hr c hc _ => rfl⟩
      · rintro ⟨hwC, hfC, hokC, hncC, hextC⟩
        exact grid_ext hwC hw fun r hr c hc =>
          hextC r hr c hc (findEmpty_none hfe r c hr hc)
    · rename_i row col hfe
      obtain ⟨hrow, hcol, hnone⟩ := findEmpty_some hfe
      rw [List.mem_flatMap]
      constructor
      · rintro ⟨v, hv, hmem⟩
        rw [List.mem_range] at hv
        by_cases hval : is_valid_placement g row col v = true
        · rw [if_pos hval] at hmem
          have hE' : emptiesIn (setG g row col (some v)) < fuel := by
            have := emptiesIn_setG_some hw hrow hcol hnone v
            omega
          obtain ⟨hwC, hfC, hokC, hncC, hextC⟩ :=
            (mem_enumSols fuel (WFm_setG hw row col (some v))
              (valuesOk_setG hw hrow hcol hv hok)
              (noConflicts_setG hw hrow hcol hnc hval) hE').mp hmem
          exact ⟨hwC, hfC, hokC, hncC,
            extendsG_step hrow hcol hnone hextC⟩
        · rw [if_neg hval] at hmem
          exact absurd hmem (List.not_mem_nil C)
      · rintro ⟨hwC, hfC, hokC, hncC, hextC⟩
        obtain ⟨v, hv⟩ := Option.isSome_iff_exists.mp (hfC row hrow col hcol)
        have hv9 : v < 9 := by
          have hok0 := hokC row hrow col hcol
          rw [hv] at hok0
          simpa using hok0
        have hval : is_valid_placement g row col v = true := by
          rw [valid_iff hrow hcol]
          intro r' c' hr' hc' hne hsu hcon
          have hC' := hextC r' hr' c' hc' (by rw [hcon]; rfl)
          rw [hcon] at hC'
          have hCvalid := hncC row hrow col hcol
          rw [hv, Option.all_some] at hCvalid
          exact (valid_iff hrow hcol).mp hCvalid r' c' hr' hc' hne hsu hC'
        refine ⟨v, List.mem_range.mpr hv9, ?_⟩
        rw [if_pos hval]
        have hE' : emptiesIn (setG g row col (some v)) < fuel := by
          have := emptiesIn_setG_some hw hrow hcol hnone v
          omega
        refine (mem_enumSols fuel (WFm_setG hw row col (some v))
          (valuesOk_setG hw hrow hcol hv9 hok)
          (noConflicts_setG hw hrow hcol hnc hval) hE').mpr
          ⟨hwC, hfC, hokC, hncC, ?_⟩
        intro r hr c hc hsome
        by_cases hrc : ((r, c) : Nat × Nat) = (row, col)
        · obtain ⟨h1, h2⟩ := Prod.mk.injEq .. ▸ hrc
          subst h1
          subst h2
          rw [getG_setG_self hw hr hc, hv]
        · rw [getG_setG_ne (pair_ne_split hrc)]
          rw [getG_setG_ne (pair_ne_split hrc)] at hsome
          exact hextC r hr c hc hsome

theorem enumSols_nodup : ∀ (fuel : Nat) (g : Grid), WFm g →
    (enumSols fuel g).Nodup
  | 0, _, _ => List.nodup_nil
  | fuel + 1, g, hw => by
    rw [enumSols]
    split
    · exact List.nodup_singleton _
    · rename_i row col hfe
      obtain ⟨hrow, hcol, hnone⟩ := findEmpty_some hfe
      rw [List.nodup_flatMap]
      constructor
      · intro v hv
        split
        · exact enumSols_nodup fuel _ (WFm_setG hw row col (some v))
        · exact List.nodup_nil
      · refine List.Pairwise.imp ?_ (List.nodup_range 9)
        intro a b hab C hCa hCb
        dsimp only at hCa hCb
        by_cases ha : is_valid_placement g row col a = true
        · by_cases hb : is_valid_placement g row col b = true
          · rw [if_pos ha] at hCa
            rw [if_pos hb] at hCb
            have ea := enumSols_extends fuel
              (WFm_setG hw row col (some a)) hCa row hrow col hcol
              (by rw [getG_setG_self hw hrow hcol]; rfl)
            have eb := enumSols_extends fuel
              (WFm_setG hw row col (some b)) hCb row hrow col hcol
              (by rw [getG_setG_self hw hrow hcol]; rfl)
            rw [getG_setG_self hw hrow hcol] at ea
            rw [getG_setG_self hw hrow hcol] at eb
            rw [ea] at eb
            injection eb with hvv
            exact hab hvv
          · rw [if_neg hb] at hCb
            exact absurd hCb (List.not_mem_nil C)
        · rw [if_neg ha] at hCa
          exact absurd hCa (List.not_mem_nil C)

/-- One value-loop of the counting solver, against the enumeration: each
valid value contributes its subtree's completions to the counter (capped),
and the grid is restored after every branch. -/
theorem solve_fold (fuel : Nat)
    (hrec : ∀ (g : Grid) (c0 cap : Nat), WFm g → ValuesOk g →
      NoConflicts g → emptiesIn g < fuel → c0 ≤ cap →
      solve_with_counter fuel g c0 cap =
        (false, g, min cap (c0 + (enumSols fuel g).length))) :
    ∀ (vals : List Nat) (g : Grid) (row col c0 cap : Nat), WFm g →
      ValuesOk g → NoConflicts g → emptiesIn g ≤ fuel →
      getG g row col = none → row < 9 → col < 9 →
      (∀ v ∈ vals, v < 9) → c0 ≤ cap →
      vals.foldl (solveStep (fun g' c' =>
        solve_with_counter fuel g' c' cap) row col) (false, g, c0) =
      (false, g, min cap (c0 + (vals.flatMap fun v =>
        if is_valid_placement g row col v then
          enumSols fuel (setG g row col (some v)) else []).length))
  | [], g, row, col, c0, cap, _, _, _, _, _, _, _, _, hc0 => by
    simp only [List.foldl_nil, List.flatMap_nil, List.length_nil,
      Nat.add_zero]
    rw [Nat.min_eq_right hc0]
  | v :: vs, g, row, col, c0, cap, hw, hok, hnc, hE, hnone, hrow, hcol,
      hvals, hc0 => by
    rw [List.foldl_cons]
    have hstep : solveStep (fun g' c' =>
        solve_with_counter fuel g' c' cap) row col (false, g, c0) v =
        if is_valid_placement g row col v then
          (false, g, min cap (c0 +
            (enumSols fuel (setG g row col (some v))).length))
        else (false, g, c0) := by
      unfold solveStep
      dsimp only
      rw [if_neg (by simp)]
      by_cases hval : is_valid_placement g row col v = true
      · rw [if_pos hval, if_pos hval]
        have hrec' := hrec (setG g row col (some v)) c0 cap
          (WFm_setG hw row col _)
          (valuesOk_setG hw hrow hcol
            (hvals v (List.mem_cons_self _ _)) hok)
          (noConflicts_setG hw hrow hcol hnc hval)
          (by have := emptiesIn_setG_some hw hrow hcol hnone v; omega)
          hc0
        rw [hrec']
        dsimp only
        rw [if_neg (by simp), setG_setG, setG_cancel hnone]
      · rw [if_neg hval, if_neg hval]
    rw [hstep]
    by_cases hval : is_valid_placement g row col v = true
    · rw [if_pos hval]
      have ih := solve_fold fuel hrec vs g row col
        (min cap (c0 + (enumSols fuel (setG g row col (some v))).length))
        cap hw hok hnc hE hnone hrow hcol
        (fun w hwm => hvals w (List.mem_cons_of_mem _ hwm))
        (Nat.min_le_left _ _)
      rw [ih, List.flatMap_cons, List.length_append, if_pos hval]
      simp only [Prod.mk.injEq]
      exact ⟨trivial, trivial, by omega⟩
    · rw [if_neg hval]
      have ih := solve_fold fuel hrec vs g row col c0 cap hw hok hnc hE
        hnone hrow hcol (fun w hwm => hvals w (List.mem_cons_of_mem _ hwm))
        hc0
      rw [ih, List.flatMap_cons, if_neg hval, List.nil_append]

/-- The counting solver computes the number of completions, capped, and
restores its input grid. -/
theorem solve_count : ∀ (fuel : Nat) (g : Grid) (c0 cap : Nat), WFm g →
    ValuesOk g → NoConflicts g → emptiesIn g < fuel → c0 ≤ cap →
    solve_with_counter fuel g c0 cap =
      (false, g, min cap (c0 + (enumSols fuel g).length))
  | 0, _, _, _, _, _, _, hE, _ => absurd hE (by omega)
  | fuel + 1, g, c0, cap, hw, hok, hnc, hE, hc0 => by
    rw [solve_with_counter]
    by_cases hstop : cap ≤ c0
    · rw [if_pos hstop]
      have hcc : c0 = cap := Nat.le_antisymm hc0 hstop
      subst hcc
      rw [Nat.min_eq_left (Nat.le_add_right _ _)]
    · rw [if_neg hstop]
      cases hfe : findEmpty g with
      | none =>
        have hlen : enumSols (fuel + 1) g = [g] := by rw [enumSols, hfe]
        rw [hlen]
        simp only [List.length_singleton]
        rw [Nat.min_eq_right (by omega)]
      | some rc =>
        obtain ⟨row, col⟩ := rc
        obtain ⟨hrow, hcol, hnone⟩ := findEmpty_some hfe
        have hfold := solve_fold fuel (solve_count fuel) (List.range 9) g
          row col c0 cap hw hok hnc (by omega) hnone hrow hcol
          (fun w hwm => List.mem_range.mp hwm) hc0
        have hlen : enumSols (fuel + 1) g = (List.range 9).flatMap fun v =>
            if is_valid_placement g row col v then
              enumSols fuel (setG g row col (some v)) else [] := by
          rw [enumSols, hfe]
        unfold GRID_SIZE
        dsimp only
        rw [hfold, hlen]

theorem length_eq_one_of_unique {l : List α} (hnd : l.Nodup) {C : α}
    (hC : C ∈ l) (huniq : ∀ C' ∈ l, C' = C) : l.length = 1 := by
  cases l with
  | nil => exact absurd hC (List.not_mem_nil C)
  | cons x t =>
    cases t with
    | nil => rfl
    | cons y u =>
      rw [List.nodup_cons] at hnd
      have hx := huniq x (List.mem_cons_self _ _)
      have hy := huniq y (List.mem_cons_of_mem _ (List.mem_cons_self _ _))
      have hxy : x = y := hx.trans hy.symm
      refine absurd ?_ hnd.1
      rw [hxy]
      exact List.mem_cons_self y u

theorem two_le_length {l : List α} {x y : α} (hx : x ∈ l) (hy : y ∈ l)
    (hne : x ≠ y) : 2 ≤ l.length := by
  obtain ⟨s, t, rfl⟩ := List.append_of_mem hx
  rw [List.mem_append, List.mem_cons] at hy
  rw [List.length_append, List.length_cons]
  rcases hy with hy | hy | hy
  · have hs := List.length_pos_of_mem hy
    omega
  · exact absurd hy.symm hne
  · have ht := List.length_pos_of_mem hy
    omega

/-- The two fixed distinct completions of the empty grid. -/
theorem pattern_complete : IsCompletionOf BoardState.new.cells patternGrid := by
  decide!

theorem pattern2_complete :
    IsCompletionOf BoardState.new.cells pattern2Grid := by
  decide!

theorem pattern_ne_pattern2 : patternGrid ≠ pattern2Grid := by decide!

set_option maxHeartbeats 1000000 in
/-- Claim C3 (amended): on a well-formed, in-range, conflict-free board,
validate_unique_solution is true iff the board has exactly one completion;
it is false on the empty board and true on every complete (fully-filled,
conflict-free) board. -/
theorem validate_unique_spec (b : BoardState) (hw : WFm b.cells)
    (hok : ValuesOk b.cells) (hnc : NoConflicts b.cells) :
    (validate_unique_solution b = true ↔
      ∃ C, IsCompletionOf b.cells C ∧
        ∀ C', IsCompletionOf b.cells C' → C' = C) ∧
    validate_unique_solution BoardState.new = false ∧
    (∀ b' : BoardState, is_complete b'.cells = true →
      validate_unique_solution b' = true) := by
  refine ⟨?_, ?_, fun b' hb' => validate_of_complete hb'⟩
  · have hE : emptiesIn b.cells < 82 := by
      have := emptiesIn_le b.cells
      omega
    unfold validate_unique_solution
    rw [solve_count 82 b.cells 0 2 hw hok hnc hE (by omega)]
    dsimp only
    simp only [Nat.zero_add]
    rw [beq_iff_eq]
    constructor
    · intro hmin
      have hN : (enumSols 82 b.cells).length = 1 := by omega
      obtain ⟨C, hC⟩ := List.length_eq_one.mp hN
      refine ⟨C, (mem_enumSols 82 hw hok hnc hE).mp
        (by rw [hC]; exact List.mem_singleton_self C), ?_⟩
      intro C' hC'
      have hmem := (mem_enumSols 82 hw hok hnc hE).mpr hC'
      rw [hC, List.mem_singleton] at hmem
      exact hmem
    · rintro ⟨C, hC, huniq⟩
      have hN : (enumSols 82 b.cells).length = 1 :=
        length_eq_one_of_unique (enumSols_nodup 82 b.cells hw)
          ((mem_enumSols 82 hw hok hnc hE).mpr hC)
          (fun C' hC' => huniq C' ((mem_enumSols 82 hw hok hnc hE).mp hC'))
      omega
  · have hwE : WFm BoardState.new.cells := by decide
    have hokE : ValuesOk BoardState.new.cells := by decide
    have hncE : NoConflicts BoardState.new.cells := by decide
    have hEE : emptiesIn BoardState.new.cells < 82 := by decide
    unfold validate_unique_solution
    rw [solve_count 82 BoardState.new.cells 0 2 hwE hokE hncE hEE (by omega)]
    have h2 : 2 ≤ (enumSols 82 BoardState.new.cells).length :=
      two_le_length ((mem_enumSols 82 hwE hokE hncE hEE).mpr pattern_complete)
        ((mem_enumSols 82 hwE hokE hncE hEE).mpr pattern2_complete)
        pattern_ne_pattern2
    dsimp only
    have hmin : min 2 (0 + (enumSols 82 BoardState.new.cells).length) = 2 := by
      omega
    rw [hmin]
    rfl

/-- Claim C3 counterexample: the all-zeros full board is accepted by
validate_unique_solution (the solver counts any full assignment, conflicted
or not), yet it has no completion at all. -/
theorem validate_unique_counterexample :
    validate_unique_solution zeroBoard = true ∧
    ¬ ∃ C, IsCompletionOf zeroBoard.cells C := by
  have hfull : ∀ r c, r < 9 → c < 9 →
      (getG zeroBoard.cells r c).isSome = true := by
    intro r c hr hc
    have hz : getG zeroBoard.cells r c = some 0 := matrix_get_full hr hc
    rw [hz]
    rfl
  constructor
  · unfold validate_unique_solution
    rw [solve82_full 0 2 (findEmpty_none_of_full hfull) (by omega)]
    rfl
  · rintro ⟨C, hwC, hfC, hokC, hncC, hextC⟩
    have hCeq : C = zeroBoard.cells := grid_ext hwC (by decide)
      (fun r hr c hc => hextC r hr c hc (hfull r c hr hc))
    have hbad : ¬ NoConflicts zeroBoard.cells := by decide
    rw [hCeq] at hncC
    exact hbad hncC


/-- Concrete instance of the C3 theorem at the complete pattern board. -/
theorem validate_unique_spec_witness :
    (WFm patternBoard.cells ∧ ValuesOk patternBoard.cells ∧
      NoConflicts patternBoard.cells) ∧
    ((validate_unique_solution patternBoard = true ↔
      ∃ C, IsCompletionOf patternBoard.cells C ∧
        ∀ C', IsCompletionOf patternBoard.cells C' → C' = C) ∧
    validate_unique_solution BoardState.new = false ∧
    (∀ b' : BoardState, is_complete b'.cells = true →
      validate_unique_solution b' = true)) := by
  have hw : WFm patternBoard.cells := by decide!
  have hok : ValuesOk patternBoard.cells := by decide!
  have hnc : NoConflicts patternBoard.cells := by decide!
  exact ⟨⟨hw, hok, hnc⟩, validate_unique_spec patternBoard hw hok hnc⟩

end NineLives
